import Mathlib

/-!
Verification development for the `plugin-help` layout engine
(`src/index.ts`).  Strings are embedded as lists of tokens: a token is
either a visible character or an ANSI styling escape sequence
(represented abstractly by a numeric code).  This lets the display-width,
strip-ansi and wrapping collaborators treat styling as zero-width, as the
spec requires, without parsing raw escape bytes.
-/

namespace PluginHelp

/-- Token of a terminal string: a plain character or an ANSI styling
escape sequence (abstracted by an identifying code). -/
inductive Tok where
  | ch (c : Char)
  | esc (code : Nat)
deriving DecidableEq, Repr

/-- A string is a sequence of tokens. -/
abbrev Str := List Tok

/-- Newline token. -/
def nlTok : Tok := Tok.ch '\n'

/-- Newline as a one-token string. -/
def nlS : Str := [nlTok]

/-- Space token. -/
def spTok : Tok := Tok.ch ' '

/-- Embed a plain Lean string (no escapes) as a token string. -/
def strL (s : String) : Str := s.toList.map Tok.ch

/-- Run of `n` spaces, as produced by the repeat-pad in `renderList`. -/
def spaces (n : Nat) : Str := List.replicate n spTok

/-- Run of `n` dashes, as produced by the markdown title underline. -/
def dashes (n : Nat) : Str := List.replicate n (Tok.ch '-')

/-- Modelled from the spec: the `strip-ansi` collaborator (not under
`src/`) removes every styling escape sequence and keeps visible
characters. -/
def stripAnsi (s : Str) : Str :=
  s.filter fun t => match t with
    | Tok.ch _ => true
    | Tok.esc _ => false

/-- Modelled from the spec: the Text Metrics collaborator `string-width`
(not under `src/`) counts visible columns, with styling sequences
counting zero. -/
def displayWidth (s : Str) : Nat := (stripAnsi s).length

/-- Whitespace test on tokens, matching the JavaScript `trim` semantics:
escape sequences are never whitespace. -/
def isWsTok : Tok → Bool
  | Tok.ch c => c.isWhitespace
  | Tok.esc _ => false

/-- Left part of the JavaScript `String.prototype.trim`. -/
def trimLeft (s : Str) : Str := s.dropWhile isWsTok

/-- Right part of the JavaScript `String.prototype.trim`. -/
def trimRight (s : Str) : Str := (s.reverse.dropWhile isWsTok).reverse

/-- The JavaScript `String.prototype.trim`: whitespace removed from both
ends, stopping at any escape sequence. -/
def trimStr (s : Str) : Str := trimRight (trimLeft s)

/-- Whether a string starts with a non-whitespace token. -/
def startsNonWs (s : Str) : Bool :=
  match s with
  | [] => false
  | t :: _ => !isWsTok t

/-- Whether a string ends with a non-whitespace token. -/
def endsNonWs (s : Str) : Bool := startsNonWs s.reverse

/-- Split a string on newline characters; always returns at least one
line, like `String.prototype.split('\x0a')`. -/
def splitLines : Str → List Str
  | [] => [[]]
  | t :: rest =>
      if t = nlTok then [] :: splitLines rest
      else (t :: (splitLines rest).headD []) :: (splitLines rest).tail

/-- Join strings with a separator, like `Array.prototype.join`. -/
def joinWith (sep : Str) : List Str → Str
  | [] => []
  | [x] => x
  | x :: y :: xs => x ++ sep ++ joinWith sep (y :: xs)

/-- Join strings with newlines. -/
def joinLines (ls : List Str) : Str := joinWith nlS ls

/-- Modelled from the spec: the Text Metrics collaborator `widest-line`
(not under `src/`): display width of the widest line. -/
def widestLine (s : Str) : Nat :=
  ((splitLines s).map displayWidth).foldr max 0

/-- Split a line on space characters, keeping empty words, like
`String.prototype.split(' ')`. -/
def splitWords : Str → List Str
  | [] => [[]]
  | t :: rest =>
      if t = spTok then [] :: splitWords rest
      else (t :: (splitWords rest).headD []) :: (splitWords rest).tail

/-- Greedy word filling for the Wrapper: `cur` is the line being built;
a word that does not fit (at one joining space) starts a new line, so a
single over-long token is emitted on its own over-long line. -/
def wrapGo (w : Nat) : List Str → Str → List Str
  | [], cur => [cur]
  | word :: rest, cur =>
      if cur = [] then wrapGo w rest word
      else if displayWidth cur + 1 + displayWidth word ≤ w then
        wrapGo w rest (cur ++ spTok :: word)
      else cur :: wrapGo w rest word

/-- Wrap one newline-free line at `w` display columns. -/
def wrapLine (w : Nat) (line : Str) : List Str :=
  wrapGo w (splitWords line) []

/-- Modelled from the spec: the Wrapper collaborator `wrap-ansi` (not
under `src/`), always used with `hard: true, trim: false` by the source.
Per §4.2 of the spec it breaks at whitespace, emits a whitespace-free
token longer than the width on its own over-long line, treats styling as
zero-width, and treats a non-positive width as pass-through. Existing
newlines are kept: each line is wrapped separately. -/
def wrap (s : Str) (w : Int) : Str :=
  if w ≤ 0 then s
  else joinLines ((splitLines s).map fun l => joinLines (wrapLine w.toNat l))

/-- Modelled from the spec: the `indent-string` collaborator (not under
`src/`): prepends `n` spaces to every line that is not entirely
whitespace. -/
def indentStr (n : Nat) (s : Str) : Str :=
  joinLines ((splitLines s).map fun l => if l.all isWsTok then l else spaces n ++ l)

/-- Uppercase the visible characters of a string, like
`String.prototype.toUpperCase`. -/
def toUpperStr (s : Str) : Str :=
  s.map fun t => match t with
    | Tok.ch c => Tok.ch c.toUpper
    | Tok.esc n => Tok.esc n

/-- Lowercase the visible characters of a string. -/
def toLowerStr (s : Str) : Str :=
  s.map fun t => match t with
    | Tok.ch c => Tok.ch c.toLower
    | Tok.esc n => Tok.esc n

/-- Modelled from the spec: `lodash.capitalize` (not under `src/`):
lowercase everything, then uppercase the first character. -/
def capitalize (s : Str) : Str :=
  match toLowerStr s with
  | [] => []
  | Tok.ch c :: rest => Tok.ch c.toUpper :: rest
  | Tok.esc n :: rest => Tok.esc n :: rest

/-- Modelled from the spec: `chalk.bold` (not under `src/`) wraps a
string in the bold-open and bold-close styling sequences. -/
def bold (s : Str) : Str := Tok.esc 1 :: s ++ [Tok.esc 22]

/-- Modelled from the spec: `lodash.compact` (not under `src/`) drops
falsy entries; on strings the falsy value is the empty string. -/
def compactL (ls : List Str) : List Str := ls.filter (· ≠ [])

/-- The help renderer's read-only context: `tmpl` abstracts the external
`lodash.template` collaborator applied with the configuration object
(`renderTemplate`); `tmpl_nil` records that the empty template renders
to the empty string.  `termwidth` is `screen.stdtermwidth`. -/
structure Help where
  tmpl : Str → Str
  tmpl_nil : tmpl [] = []
  termwidth : Nat

/-- The source's `renderTemplate`: `_.template(template || '')({config})`,
with an absent template behaving as the empty string. -/
def renderTemplate (h : Help) (t : Option Str) : Str := h.tmpl (t.getD [])

/-- Options of `renderList` (`{maxWidth, multiline?, stripAnsi?}`). -/
structure ListOpts where
  maxWidth : Int
  multiline : Bool := false
  stripAnsi : Bool := false
deriving DecidableEq

/-- Apply `stripAnsi` when the option is set. -/
def stripIf (b : Bool) (s : Str) : Str := if b then stripAnsi s else s

/-- One row of the source's `renderMultiline` loop body: the label
wrapped at full width, then (when a description is present) a newline
and the description wrapped at `maxWidth - 2` and indented by 4. -/
def multilineRow (strip : Bool) (mw : Int) (p : Str × Str) : Str :=
  (if p.1 ≠ [] then wrap (trimStr (stripIf strip p.1)) mw else [])
    ++ (if p.2 ≠ [] then nlS ++ indentStr 4 (wrap (trimStr (stripIf strip p.2)) (mw - 2)) else [])

/-- The source's `renderMultiline` closure: rows with both sides empty
are skipped, every emitted row is followed by a blank line, and the
whole output is trimmed. -/
def renderMultiline (strip : Bool) (mw : Int) (input : List (Str × Str)) : Str :=
  trimStr (input.foldl
    (fun out p => if p.1 = [] ∧ p.2 = [] then out else out ++ multilineRow strip mw p ++ nlS ++ nlS)
    [])

/-- The source's `maxLength`: widest line of all labels joined by
newlines (`widestLine(input.map(i => i[0]).join('\x0a'))`). -/
def labelColWidth (mapped : List (Str × Str)) : Nat :=
  widestLine (joinLines (mapped.map Prod.fst))

/-- Width available to a wrapped description in compact mode:
`opts.maxWidth - (maxLength + 2)`. -/
def descWidth (mw : Int) (maxLength : Nat) : Int := mw - ((maxLength : Int) + 2)

/-- The wrapped, per-line-trimmed description lines of a row:
`wrap(right.trim(), w).split('\x0a').map(s => s.trim())`, with the
optional ANSI strip applied first. -/
def descLines (strip : Bool) (w : Int) (r : Str) : List Str :=
  (splitLines (wrap (trimStr (stripIf strip r)) w)).map trimStr

/-- Compact-loop state: accumulated output, current spacer, current row
text (`output`, `spacer`, `cur`). -/
abbrev CState := Str × Str × Str

/-- The flush at the top of the compact loop and after it:
`if (cur) { output += spacer; output += cur }`. -/
def flushCur (st : CState) : Str :=
  if st.2.2 = [] then st.1 else st.1 ++ st.2.1 ++ st.2.2

/-- One iteration of the compact loop of `renderList`; `none` is the
early `return renderMultiline()` taken when a row leaves more than 4
wrapped description lines after the first.  The space-padding count is
truncated at zero here, which is adequate only where it is provably
non-negative: the source's `repeat` throws a `RangeError` on a negative
count, and `stepRowE` below is the error-faithful version. -/
def stepRow (strip : Bool) (w : Int) (maxLength : Nat) (st : CState) (p : Str × Str) :
    Option CState :=
  let out := flushCur st
  let cur := stripIf strip p.1
  if p.2 = [] then some (out, st.2.1, trimStr cur)
  else
    match descLines strip w p.2 with
    | [] => some (out, st.2.1, cur)
    | first :: rest =>
      let cur := cur ++ spaces (maxLength + 2 - displayWidth cur) ++ first
      if rest = [] then some (out, st.2.1, cur)
      else if 4 < rest.length then none
      else some (out, nlS ++ nlS, cur ++ nlS ++ indentStr (maxLength + 2) (joinLines rest))

/-- The compact loop of `renderList` over all rows. -/
def compactLoop (strip : Bool) (w : Int) (maxLength : Nat) :
    List (Str × Str) → CState → Option CState
  | [], st => some st
  | p :: rest, st =>
      match stepRow strip w maxLength st p with
      | none => none
      | some st' => compactLoop strip w maxLength rest st'

/-- The source's `renderList`: template-substitute both sides of every
row, then render multiline when forced, otherwise run the compact
two-column loop, falling back to the multiline rendering when some row
wraps to more than 4 description lines beyond the first. -/
def renderList (h : Help) (input : List (Option Str × Option Str)) (opts : ListOpts) : Str :=
  if input = [] then []
  else
    let mapped := input.map fun p => (renderTemplate h p.1, renderTemplate h p.2)
    if opts.multiline then renderMultiline opts.stripAnsi opts.maxWidth mapped
    else
      let maxLength := labelColWidth mapped
      match compactLoop opts.stripAnsi (descWidth opts.maxWidth maxLength) maxLength mapped
          ([], nlS, []) with
      | none => renderMultiline opts.stripAnsi opts.maxWidth mapped
      | some st => trimStr (flushCur st)

/-- Optional section type tag. -/
inductive SType where
  | plain
  | code
deriving DecidableEq

/-- The three shapes of a section body: a single prose string, prose
lines, or label/description pairs. -/
inductive Body where
  | str (s : Str)
  | strs (ls : List Str)
  | pairs (ps : List (Option Str × Option Str))

/-- A help section (`{heading, type?, body}`). -/
structure Sec where
  heading : Str
  type : Option SType
  body : Body

/-- A help article (`{title?, sections}`). -/
structure Article where
  title : Option Str
  sections : List Sec

/-- Emptiness test used by the dispatch `s.body.length === 0`. -/
def bodyIsEmpty : Body → Bool
  | Body.str s => s.length = 0
  | Body.strs ls => ls.length = 0
  | Body.pairs ps => ps.length = 0

/-- The `_.castArray(body).join('\x0a')` of the prose branches; for the
pair shape it is unused. -/
def bodyJoined : Body → Str
  | Body.str s => s
  | Body.strs ls => joinLines ls
  | Body.pairs _ => []

/-- Body of one screen section: empty bodies render empty, a pair list
goes to `renderList`, prose is templated then wrapped at
`maxWidth - 2`. -/
def sectionBodyScreen (h : Help) (s : Sec) : Str :=
  if bodyIsEmpty s.body then []
  else
    match s.body with
    | Body.pairs ps => renderList h ps { maxWidth := (h.termwidth : Int) - 2 }
    | b => wrap (h.tmpl (bodyJoined b)) ((h.termwidth : Int) - 2)

/-- One screen section: emphasized upper-cased heading over the body
indented by 2; an empty body leaves only the heading. -/
def renderSectionScreen (h : Help) (s : Sec) : Str :=
  joinLines (compactL [bold (toUpperStr s.heading), indentStr 2 (sectionBodyScreen h s)])

/-- The source's `renderScreen`. -/
def renderScreen (h : Help) (a : Article) : Str :=
  joinWith (nlS ++ nlS)
    (compactL (renderTemplate h a.title :: a.sections.map (renderSectionScreen h)))

/-- Body of one markdown section, always starting with a newline: pair
lists are rendered ANSI-stripped inside a code fence at width 98, prose
is templated, de-styled and wrapped at 98. -/
def sectionBodyMd (h : Help) (s : Sec) : Str :=
  nlS ++
    (if bodyIsEmpty s.body then []
     else
       match s.body with
       | Body.pairs ps =>
           strL ("```") ++ nlS ++ renderList h ps { maxWidth := 98, stripAnsi := true }
             ++ nlS ++ strL ("```")
       | b => wrap (stripAnsi (h.tmpl (bodyJoined b))) 98)

/-- One markdown section: bold capitalized heading, then the body, with
`code`-typed sections additionally wrapped in a shell-session fence; a
trailing newline is always appended. -/
def renderSectionMd (h : Help) (s : Sec) : Str :=
  let body := sectionBodyMd h s
  let body :=
    if s.type = some SType.code then strL ("\n```sh-session") ++ body ++ strL ("\n```")
    else body
  joinLines (compactL [strL ("**") ++ capitalize s.heading ++ strL ("**"), body]) ++ nlS

/-- The source's `renderMarkdown`: de-styled rendered title, a dash
underline sized from the raw title, a blank line, then the sections,
all joined by newlines and trimmed. -/
def renderMarkdown (h : Help) (a : Article) : Str :=
  trimStr (joinLines
    ([stripAnsi (renderTemplate h a.title), dashes (displayWidth (a.title.getD [])), []]
      ++ a.sections.map (renderSectionMd h)))

/-- The lines of a string that are not empty (row content as opposed to
blank separator lines). -/
def neLines (s : Str) : List Str := (splitLines s).filter (· ≠ [])

/-- Whether a string contains no ANSI styling sequence. -/
def escFree (s : Str) : Bool :=
  s.all fun t => match t with
    | Tok.ch _ => true
    | Tok.esc _ => false

/-- Compact-mode row text as the spec describes it: a row without a
description is its trimmed label alone; otherwise the label is padded on
the right to `labelColumnWidth + 2` columns and the first wrapped
description line follows directly. -/
def compactRowText (strip : Bool) (w : Int) (colw : Nat) (p : Str × Str) : Str :=
  if p.2 = [] then trimStr (stripIf strip p.1)
  else
    stripIf strip p.1 ++ spaces (colw + 2 - displayWidth (stripIf strip p.1))
      ++ (descLines strip w p.2).headD []

/-- Compact-mode row lines as the spec describes them: the padded first
line, then every remaining wrapped description line indented by
`labelColumnWidth + 2` spaces. -/
def compactRowLines (strip : Bool) (w : Int) (colw : Nat) (p : Str × Str) : List Str :=
  compactRowText strip w colw p
    :: (descLines strip w p.2).tail.map (fun l => spaces (colw + 2) ++ l)

/-- Stacked-mode row text as the spec describes it for a row with both
sides present: the label wrapped at full width on its own line(s), then
the description wrapped at `maxWidth - 2` and indented by 4 columns. -/
def stackedRowText (strip : Bool) (mw : Int) (p : Str × Str) : Str :=
  wrap (trimStr (stripIf strip p.1)) mw
    ++ nlS ++ indentStr 4 (wrap (trimStr (stripIf strip p.2)) (mw - 2))

/-- A concrete context whose template substitution is the identity, for
concrete evaluations. -/
def hId : Help := ⟨fun s => s, rfl, 80⟩

/-- A concrete context that substitutes the placeholder `<bin>` by
`cli`, exhibiting a width-changing template substitution. -/
def hSub : Help :=
  ⟨fun s => if s = strL ("<bin>") then strL ("cli") else s, by decide, 80⟩

/-- Modelled from the spec: `string-width` (not under `src/`) measures the
visible columns of the whole string, a control character such as the
newline also counting zero — on a multi-line string it therefore sums the
widths of all lines, unlike `widest-line`, which takes the widest one. -/
def swWidth (s : Str) : Nat := displayWidth (s.filter (· ≠ nlTok))

/-- Result of one error-faithful compact-loop step: the next state, the
early fallback to the multiline rendering, or the `RangeError` thrown by
the space-padding `repeat` when its count is negative. -/
inductive StepRes where
  | next (st : CState)
  | fallback
  | err

/-- Error-faithful variant of `stepRow`: the padding count
`maxLength - width(cur) + 2` of the source is compared against zero as
the source's `repeat` does, a negative count being the thrown
`RangeError` (`StepRes.err`), and the width of `cur` is the
`string-width` of the whole — possibly multi-line — label (`swWidth`).
The throw happens before the more-than-4-lines test, as in the source;
`stepRowE_eq_stepRow` shows `stepRow` agrees with this wherever the
label is a single line fitting the label column. -/
def stepRowE (strip : Bool) (w : Int) (maxLength : Nat) (st : CState) (p : Str × Str) :
    StepRes :=
  let out := flushCur st
  let cur := stripIf strip p.1
  if p.2 = [] then StepRes.next (out, st.2.1, trimStr cur)
  else if ((maxLength : Int) + 2) < (swWidth cur : Int) then StepRes.err
  else
    match descLines strip w p.2 with
    | [] => StepRes.next (out, st.2.1, cur)
    | first :: rest =>
      let cur := cur ++ spaces (maxLength + 2 - swWidth cur) ++ first
      if rest = [] then StepRes.next (out, st.2.1, cur)
      else if 4 < rest.length then StepRes.fallback
      else StepRes.next
        (out, nlS ++ nlS, cur ++ nlS ++ indentStr (maxLength + 2) (joinLines rest))

/-- The error-faithful compact loop: the fallback and the thrown
`RangeError` both abort it. -/
def compactLoopE (strip : Bool) (w : Int) (maxLength : Nat) :
    List (Str × Str) → CState → StepRes
  | [], st => StepRes.next st
  | p :: rest, st =>
      match stepRowE strip w maxLength st p with
      | StepRes.next st2 => compactLoopE strip w maxLength rest st2
      | StepRes.fallback => StepRes.fallback
      | StepRes.err => StepRes.err

/-- Error-faithful `renderList`: `none` is the uncaught `RangeError`
thrown by the space-padding `repeat` when a row has a present
description and a (stripped) label whose `string-width` exceeds
`maxLength + 2`; since `maxLength` is the widest single label line, that
needs a label spanning several lines. -/
def renderListE (h : Help) (input : List (Option Str × Option Str)) (opts : ListOpts) :
    Option Str :=
  if input = [] then some []
  else
    let mapped := input.map fun p => (renderTemplate h p.1, renderTemplate h p.2)
    if opts.multiline then some (renderMultiline opts.stripAnsi opts.maxWidth mapped)
    else
      let maxLength := labelColWidth mapped
      match compactLoopE opts.stripAnsi (descWidth opts.maxWidth maxLength) maxLength mapped
          ([], nlS, []) with
      | StepRes.next st => some (trimStr (flushCur st))
      | StepRes.fallback => some (renderMultiline opts.stripAnsi opts.maxWidth mapped)
      | StepRes.err => none

/-- Error-faithful body of one screen section: the `RangeError` of
`renderList` propagates out. -/
def sectionBodyScreenE (h : Help) (s : Sec) : Option Str :=
  if bodyIsEmpty s.body then some []
  else
    match s.body with
    | Body.pairs ps => renderListE h ps { maxWidth := (h.termwidth : Int) - 2 }
    | b => some (wrap (h.tmpl (bodyJoined b)) ((h.termwidth : Int) - 2))

/-- Error-faithful screen section. -/
def renderSectionScreenE (h : Help) (s : Sec) : Option Str :=
  (sectionBodyScreenE h s).map fun b =>
    joinLines (compactL [bold (toUpperStr s.heading), indentStr 2 b])

/-- Sequence the optional section renderings: `none` as soon as one
section throws, like an uncaught exception escaping the map over
sections. -/
def seqOpt : List (Option Str) → Option (List Str)
  | [] => some []
  | o :: rest =>
      match o, seqOpt rest with
      | some s, some ss => some (s :: ss)
      | _, _ => none

/-- Error-faithful `renderScreen`. -/
def renderScreenE (h : Help) (a : Article) : Option Str :=
  (seqOpt (a.sections.map (renderSectionScreenE h))).map fun bs =>
    joinWith (nlS ++ nlS) (compactL (renderTemplate h a.title :: bs))

/-- Error-faithful body of one markdown section. -/
def sectionBodyMdE (h : Help) (s : Sec) : Option Str :=
  (if bodyIsEmpty s.body then some []
   else
     match s.body with
     | Body.pairs ps =>
         (renderListE h ps { maxWidth := 98, stripAnsi := true }).map fun r =>
           strL ("```") ++ nlS ++ r ++ nlS ++ strL ("```")
     | b => some (wrap (stripAnsi (h.tmpl (bodyJoined b))) 98)).map
    fun b => nlS ++ b

/-- Error-faithful markdown section. -/
def renderSectionMdE (h : Help) (s : Sec) : Option Str :=
  (sectionBodyMdE h s).map fun body =>
    joinLines (compactL [strL ("**") ++ capitalize s.heading ++ strL ("**"),
      if s.type = some SType.code then strL ("\n```sh-session") ++ body ++ strL ("\n```")
      else body]) ++ nlS

/-- Error-faithful `renderMarkdown`. -/
def renderMarkdownE (h : Help) (a : Article) : Option Str :=
  (seqOpt (a.sections.map (renderSectionMdE h))).map fun bs =>
    trimStr (joinLines
      ([stripAnsi (renderTemplate h a.title), dashes (displayWidth (a.title.getD [])), []]
        ++ bs))

theorem splitLines_ne_nil (s : Str) : splitLines s ≠ [] := by
  cases s with
  | nil => simp [splitLines]
  | cons t rest => simp only [splitLines]; split <;> simp

theorem splitLines_cons_nl (s : Str) : splitLines (nlTok :: s) = [] :: splitLines s := by
  simp [splitLines]

theorem splitLines_cons_ne (t : Tok) (s : Str) (h : t ≠ nlTok) :
    splitLines (t :: s) = (t :: (splitLines s).headD []) :: (splitLines s).tail := by
  simp [splitLines, h]

theorem splitLines_append_nl (a b : Str) :
    splitLines (a ++ nlTok :: b) = splitLines a ++ splitLines b := by
  induction a with
  | nil => simp [splitLines_cons_nl, splitLines]
  | cons t a ih =>
      by_cases ht : t = nlTok
      · subst ht
        simp [splitLines_cons_nl, ih]
      · obtain ⟨x, xs, hx⟩ := List.exists_cons_of_ne_nil (splitLines_ne_nil a)
        simp [splitLines_cons_ne t _ ht, ih, hx]

theorem splitLines_no_nl (a : Str) (h : nlTok ∉ a) : splitLines a = [a] := by
  induction a with
  | nil => simp [splitLines]
  | cons t a ih =>
      have ht : t ≠ nlTok := fun hc => h (hc ▸ List.mem_cons_self t a)
      have ha : nlTok ∉ a := fun hc => h (List.mem_cons_of_mem t hc)
      rw [splitLines_cons_ne t a ht, ih ha]
      simp

theorem mem_splitLines_no_nl {l : Str} {s : Str} (h : l ∈ splitLines s) : nlTok ∉ l := by
  induction s generalizing l with
  | nil =>
      simp [splitLines] at h
      simp [h]
  | cons t s ih =>
      by_cases ht : t = nlTok
      · subst ht
        rw [splitLines_cons_nl] at h
        rcases List.mem_cons.mp h with h | h
        · simp [h]
        · exact ih h
      · rw [splitLines_cons_ne t s ht] at h
        obtain ⟨x, xs, hx⟩ := List.exists_cons_of_ne_nil (splitLines_ne_nil s)
        rw [hx] at h
        simp only [List.headD_cons, List.tail_cons] at h
        rcases List.mem_cons.mp h with h | h
        · subst h
          intro hm
          rcases List.mem_cons.mp hm with hm | hm
          · exact ht hm.symm
          · exact ih (hx ▸ List.mem_cons_self x xs) hm
        · exact ih (hx ▸ List.mem_cons_of_mem x h)

theorem joinWith_cons (sep x : Str) (ls : List Str) (h : ls ≠ []) :
    joinWith sep (x :: ls) = x ++ sep ++ joinWith sep ls := by
  cases ls with
  | nil => exact absurd rfl h
  | cons y ys => rfl

theorem splitLines_joinLines (ls : List Str) (hne : ls ≠ [])
    (hnl : ∀ l ∈ ls, nlTok ∉ l) : splitLines (joinLines ls) = ls := by
  induction ls with
  | nil => exact absurd rfl hne
  | cons x ls ih =>
      cases ls with
      | nil =>
          show splitLines x = [x]
          exact splitLines_no_nl x (hnl x (List.mem_cons_self x []))
      | cons y ys =>
          rw [joinLines, joinWith_cons nlS x (y :: ys) (by simp)]
          have : x ++ nlS ++ joinWith nlS (y :: ys) = x ++ nlTok :: joinWith nlS (y :: ys) := by
            simp [nlS]
          rw [this, splitLines_append_nl]
          rw [splitLines_no_nl x (hnl x (List.mem_cons_self x (y :: ys)))]
          have := ih (by simp) (fun l hl => hnl l (List.mem_cons_of_mem x hl))
          rw [joinLines] at this
          rw [this]
          rfl

theorem neLines_append_nl (a b : Str) : neLines (a ++ nlTok :: b) = neLines a ++ neLines b := by
  rw [neLines, splitLines_append_nl, List.filter_append]
  rfl

theorem neLines_no_nl (a : Str) (h : nlTok ∉ a) (hne : a ≠ []) : neLines a = [a] := by
  rw [neLines, splitLines_no_nl a h]
  simp [hne]

theorem neLines_nil : neLines [] = [] := by decide

theorem dropWhile_ws_head (s : Str) :
    s.dropWhile isWsTok = [] ∨ startsNonWs (s.dropWhile isWsTok) = true := by
  induction s with
  | nil => left; rfl
  | cons t rest ih =>
      by_cases ht : isWsTok t
      · rw [List.dropWhile_cons_of_pos ht]
        exact ih
      · rw [List.dropWhile_cons_of_neg ht]
        right
        simp [startsNonWs, ht]

theorem startsNonWs_append (a b : Str) (h : a ≠ []) :
    startsNonWs (a ++ b) = startsNonWs a := by
  cases a with
  | nil => exact absurd rfl h
  | cons t rest => rfl

theorem endsNonWs_append (a b : Str) (h : b ≠ []) :
    endsNonWs (a ++ b) = endsNonWs b := by
  rw [endsNonWs, endsNonWs, List.reverse_append]
  exact startsNonWs_append _ _ (by simp [h])

theorem startsNonWs_ne_nil {s : Str} (h : startsNonWs s = true) : s ≠ [] := by
  cases s with
  | nil => simp [startsNonWs] at h
  | cons t rest => simp

theorem endsNonWs_ne_nil {s : Str} (h : endsNonWs s = true) : s ≠ [] := by
  have := startsNonWs_ne_nil h
  intro hc
  rw [hc] at this
  simp [List.reverse_nil] at this

theorem trimLeft_eq_self {s : Str} (h : startsNonWs s = true) : trimLeft s = s := by
  cases s with
  | nil => rfl
  | cons t rest =>
      have : ¬ isWsTok t := by simpa [startsNonWs] using h
      rw [trimLeft, List.dropWhile_cons_of_neg this]

theorem trimRight_eq_self {s : Str} (h : endsNonWs s = true) : trimRight s = s := by
  rw [endsNonWs] at h
  rw [trimRight]
  cases hr : s.reverse with
  | nil => rw [hr] at h; simp [startsNonWs] at h
  | cons t rest =>
      rw [hr] at h
      have : ¬ isWsTok t := by simpa [startsNonWs] using h
      rw [List.dropWhile_cons_of_neg this, ← hr, List.reverse_reverse]

theorem startsNonWs_trimLeft {s : Str} (h : trimLeft s ≠ []) :
    startsNonWs (trimLeft s) = true := by
  rcases dropWhile_ws_head s with hd | hd
  · exact absurd hd h
  · exact hd

theorem startsNonWs_trimRight {s : Str} (h : startsNonWs s = true) :
    startsNonWs (trimRight s) = true := by
  cases s with
  | nil => simp [startsNonWs] at h
  | cons t rest =>
      have ht : ¬ isWsTok t := by simpa [startsNonWs] using h
      rw [trimRight, List.reverse_cons]
      by_cases hall : rest.reverse.dropWhile isWsTok = []
      · rw [List.dropWhile_append, hall]
        simp only [List.isEmpty_nil, if_true]
        rw [List.dropWhile_cons_of_neg ht]
        simp [startsNonWs, ht]
      · rw [List.dropWhile_append]
        simp only [List.isEmpty_eq_true, hall, if_false]
        rw [List.reverse_append]
        simp [startsNonWs, ht]

theorem endsNonWs_trimRight {s : Str} (h : trimRight s ≠ []) :
    endsNonWs (trimRight s) = true := by
  rw [endsNonWs, trimRight, List.reverse_reverse]
  rcases dropWhile_ws_head s.reverse with hd | hd
  · exfalso; apply h; rw [trimRight, hd]; rfl
  · exact hd

theorem startsNonWs_trimStr {s : Str} (h : trimStr s ≠ []) :
    startsNonWs (trimStr s) = true := by
  rw [trimStr] at h ⊢
  have hl : trimLeft s ≠ [] := by
    intro hc
    apply h
    rw [hc]
    rfl
  exact startsNonWs_trimRight (startsNonWs_trimLeft hl)

theorem endsNonWs_trimStr {s : Str} (h : trimStr s ≠ []) :
    endsNonWs (trimStr s) = true := by
  rw [trimStr] at h ⊢
  exact endsNonWs_trimRight h

theorem trimStr_eq_of_clean {s : Str} (h1 : startsNonWs s = true) (h2 : endsNonWs s = true) :
    trimStr s = s := by
  rw [trimStr, trimLeft_eq_self h1, trimRight_eq_self h2]

theorem trimStr_sublist (s : Str) : List.Sublist (trimStr s) s := by
  have h1 : List.Sublist (trimLeft s) s := List.dropWhile_sublist _
  have h2 : List.Sublist (trimRight (trimLeft s)) (trimLeft s) := by
    rw [trimRight]
    have := List.dropWhile_sublist (l := (trimLeft s).reverse) (p := isWsTok)
    have := this.reverse
    rwa [List.reverse_reverse] at this
  exact h2.trans h1

theorem not_mem_trimStr {x : Tok} {s : Str} (h : x ∉ s) : x ∉ trimStr s :=
  fun hc => h ((trimStr_sublist s).subset hc)

theorem trimStr_idem (s : Str) : trimStr (trimStr s) = trimStr s := by
  by_cases h : trimStr s = []
  · rw [h]; rfl
  · exact trimStr_eq_of_clean (startsNonWs_trimStr h) (endsNonWs_trimStr h)

theorem displayWidth_append (a b : Str) :
    displayWidth (a ++ b) = displayWidth a + displayWidth b := by
  simp [displayWidth, stripAnsi, List.filter_append]

theorem displayWidth_stripAnsi (s : Str) : displayWidth (stripAnsi s) = displayWidth s := by
  simp [displayWidth, stripAnsi, List.filter_filter]

theorem displayWidth_stripIf (b : Bool) (s : Str) :
    displayWidth (stripIf b s) = displayWidth s := by
  cases b with
  | false => rfl
  | true => exact displayWidth_stripAnsi s

theorem displayWidth_spaces (n : Nat) : displayWidth (spaces n) = n := by
  simp [displayWidth, spaces, stripAnsi, spTok]

theorem foldr_max_append (a b : List Nat) :
    (a ++ b).foldr max 0 = max (a.foldr max 0) (b.foldr max 0) := by
  induction a with
  | nil => simp
  | cons x xs ih => simp [ih, Nat.max_assoc]

theorem widestLine_append_nl (a b : Str) :
    widestLine (a ++ nlTok :: b) = max (widestLine a) (widestLine b) := by
  rw [widestLine, splitLines_append_nl, List.map_append, foldr_max_append]
  rfl

theorem widestLine_no_nl (a : Str) (h : nlTok ∉ a) : widestLine a = displayWidth a := by
  rw [widestLine, splitLines_no_nl a h]
  simp

theorem widestLine_joinLines (ls : List Str) :
    widestLine (joinLines ls) = (ls.map widestLine).foldr max 0 := by
  induction ls with
  | nil => decide
  | cons x ls ih =>
      cases ls with
      | nil => simp [joinLines, joinWith, widestLine]
      | cons y ys =>
          rw [joinLines, joinWith_cons nlS x (y :: ys) (by simp)]
          have hx : x ++ nlS ++ joinWith nlS (y :: ys) = x ++ nlTok :: joinWith nlS (y :: ys) := by
            simp [nlS]
          rw [hx, widestLine_append_nl]
          rw [joinLines] at ih
          rw [ih]
          rfl

theorem le_foldr_max {x : Nat} {l : List Nat} (h : x ∈ l) : x ≤ l.foldr max 0 := by
  induction l with
  | nil => cases h
  | cons y ys ih =>
      rcases List.mem_cons.mp h with h | h
      · subst h; exact Nat.le_max_left _ _
      · exact Nat.le_trans (ih h) (Nat.le_max_right _ _)

theorem label_le_colWidth {p : Str × Str} {mapped : List (Str × Str)}
    (hm : p ∈ mapped) (hnl : nlTok ∉ p.1) : displayWidth p.1 ≤ labelColWidth mapped := by
  rw [labelColWidth, widestLine_joinLines]
  have : widestLine p.1 = displayWidth p.1 := widestLine_no_nl _ hnl
  rw [← this]
  exact le_foldr_max (List.mem_map_of_mem widestLine (List.mem_map_of_mem Prod.fst hm))

theorem splitWords_ne_nil (s : Str) : splitWords s ≠ [] := by
  cases s with
  | nil => simp [splitWords]
  | cons t rest => simp only [splitWords]; split <;> simp

theorem joinWith_splitWords (l : Str) : joinWith [spTok] (splitWords l) = l := by
  induction l with
  | nil => rfl
  | cons t rest ih =>
      by_cases ht : t = spTok
      · subst ht
        rw [show splitWords (spTok :: rest) = [] :: splitWords rest by simp [splitWords]]
        rw [joinWith_cons [spTok] [] (splitWords rest) (splitWords_ne_nil rest), ih]
        rfl
      · rw [show splitWords (t :: rest)
              = (t :: (splitWords rest).headD []) :: (splitWords rest).tail by
            simp [splitWords, ht]]
        obtain ⟨x, xs, hx⟩ := List.exists_cons_of_ne_nil (splitWords_ne_nil rest)
        rw [hx]
        simp only [List.headD_cons, List.tail_cons]
        cases xs with
        | nil =>
            have : joinWith [spTok] [x] = x := rfl
            rw [hx, this] at ih
            show t :: x = t :: rest
            rw [ih]
        | cons y ys =>
            rw [joinWith_cons [spTok] (t :: x) (y :: ys) (by simp)]
            rw [hx, joinWith_cons [spTok] x (y :: ys) (by simp)] at ih
            show t :: (x ++ [spTok] ++ joinWith [spTok] (y :: ys)) = t :: rest
            rw [ih]

theorem joinWith_glue (sep cur word : Str) (rest : List Str) :
    joinWith sep ((cur ++ sep ++ word) :: rest) = joinWith sep (cur :: word :: rest) := by
  cases rest with
  | nil => simp [joinWith]
  | cons r rs =>
      rw [joinWith_cons sep _ (r :: rs) (by simp),
        joinWith_cons sep cur (word :: r :: rs) (by simp),
        joinWith_cons sep word (r :: rs) (by simp)]
      simp

theorem wrapGo_ne_nil (w : Nat) (words : List Str) (cur : Str) : wrapGo w words cur ≠ [] := by
  induction words generalizing cur with
  | nil => simp [wrapGo]
  | cons word rest ih =>
      simp only [wrapGo]
      split
      · exact ih word
      · split
        · exact ih _
        · simp

theorem startsNonWs_wrapGo (w : Nat) (words : List Str) (cur : Str)
    (h : startsNonWs cur = true) : startsNonWs (joinLines (wrapGo w words cur)) = true := by
  induction words generalizing cur with
  | nil => exact h
  | cons word rest ih =>
      have hne : cur ≠ [] := startsNonWs_ne_nil h
      simp only [wrapGo, hne, if_false]
      split
      · have : startsNonWs (cur ++ spTok :: word) = startsNonWs cur :=
          startsNonWs_append cur _ hne
        exact ih _ (this ▸ h)
      · rw [joinLines, joinWith_cons nlS cur _ (wrapGo_ne_nil w rest word)]
        rw [startsNonWs_append _ _ (by simp [hne]), startsNonWs_append _ _ hne]
        exact h

theorem endsNonWs_singleton_ws : endsNonWs [spTok] = false := by decide

theorem endsNonWs_wrapGo (w : Nat) (words : List Str) (cur : Str)
    (h : endsNonWs (joinWith [spTok] (cur :: words)) = true) :
    endsNonWs (joinLines (wrapGo w words cur)) = true := by
  induction words generalizing cur with
  | nil => exact h
  | cons word rest ih =>
      have hJ : endsNonWs (joinWith [spTok] (word :: rest)) = true := by
        rw [joinWith_cons [spTok] cur (word :: rest) (by simp)] at h
        by_cases hj : joinWith [spTok] (word :: rest) = []
        · rw [hj, List.append_nil] at h
          rw [endsNonWs_append cur [spTok] (by simp)] at h
          exact absurd h (by decide)
        · rw [List.append_assoc, endsNonWs_append cur _ (by simp)] at h
          rw [endsNonWs_append [spTok] _ hj] at h
          exact h
      simp only [wrapGo]
      split
      · exact ih word hJ
      · split
        · apply ih
          rw [show spTok :: word = [spTok] ++ word from rfl, ← List.append_assoc,
            joinWith_glue]
          exact h
        · rw [joinLines, joinWith_cons nlS cur _ (wrapGo_ne_nil w rest word)]
          have hw := ih word hJ
          rw [joinLines] at hw
          rw [List.append_assoc, endsNonWs_append cur _ (by simp [nlS]),
            endsNonWs_append nlS _ (endsNonWs_ne_nil hw)]
          exact hw

theorem endsNonWs_wrapLineJoin (w : Nat) (l : Str) (h : endsNonWs l = true) :
    endsNonWs (joinLines (wrapLine w l)) = true := by
  rw [wrapLine]
  obtain ⟨w1, tl, hw⟩ := List.exists_cons_of_ne_nil (splitWords_ne_nil l)
  rw [hw]
  simp only [wrapGo, if_pos rfl]
  apply endsNonWs_wrapGo
  rw [← hw, joinWith_splitWords]
  exact h

theorem endsNonWs_joinWith_concat (sep : Str) (ls : List Str) (x : Str)
    (h : endsNonWs x = true) : endsNonWs (joinWith sep (ls ++ [x])) = true := by
  induction ls with
  | nil => exact h
  | cons a ls ih =>
      rw [show a :: ls ++ [x] = a :: (ls ++ [x]) from rfl,
        joinWith_cons sep a (ls ++ [x]) (by simp)]
      rw [List.append_assoc, endsNonWs_append a _ (by
        intro hc
        rcases List.append_eq_nil.mp hc with ⟨h1, h2⟩
        exact endsNonWs_ne_nil ih h2)]
      rw [endsNonWs_append sep _ (endsNonWs_ne_nil ih)]
      exact ih

theorem exists_last_nl_split {s : Str} (h : nlTok ∈ s) :
    ∃ a b, s = a ++ nlTok :: b ∧ nlTok ∉ b := by
  induction s with
  | nil => cases h
  | cons t rest ih =>
      by_cases hr : nlTok ∈ rest
      · obtain ⟨a, b, hab, hb⟩ := ih hr
        exact ⟨t :: a, b, by rw [hab]; rfl, hb⟩
      · rcases List.mem_cons.mp h with h | h
        · exact ⟨[], rest, by rw [← h]; rfl, hr⟩
        · exact absurd h hr

theorem endsNonWs_wrap (s : Str) (w : Int) (h : endsNonWs s = true) :
    endsNonWs (wrap s w) = true := by
  rw [wrap]
  split
  · exact h
  · by_cases hnl : nlTok ∈ s
    · obtain ⟨a, b, hab, hb⟩ := exists_last_nl_split hnl
      subst hab
      have hbne : b ≠ [] := by
        intro hc
        subst hc
        rw [endsNonWs_append a [nlTok] (by simp)] at h
        exact absurd h (by decide)
      rw [splitLines_append_nl, splitLines_no_nl b hb, List.map_append]
      apply endsNonWs_joinWith_concat
      apply endsNonWs_wrapLineJoin
      rw [endsNonWs_append a _ (by simp),
        show nlTok :: b = [nlTok] ++ b from rfl, endsNonWs_append [nlTok] b hbne] at h
      exact h
    · rw [splitLines_no_nl s hnl]
      show endsNonWs (joinLines [joinLines (wrapLine w.toNat s)]) = true
      exact endsNonWs_wrapLineJoin _ s h

theorem displayWidth_le_joinWith (sep word : Str) (rest : List Str) :
    displayWidth word ≤ displayWidth (joinWith sep (word :: rest)) := by
  cases rest with
  | nil => exact Nat.le_refl _
  | cons r rs =>
      rw [joinWith_cons sep word (r :: rs) (by simp), displayWidth_append, displayWidth_append]
      omega

theorem wrapGo_single (w : Nat) (words : List Str) :
    ∀ cur : Str, cur ≠ [] → displayWidth (joinWith [spTok] (cur :: words)) ≤ w →
    wrapGo w words cur = [joinWith [spTok] (cur :: words)] := by
  induction words with
  | nil => intro cur _ _; rfl
  | cons word rest ih =>
      intro cur hne hw
      have hglue : joinWith [spTok] ((cur ++ [spTok] ++ word) :: rest)
          = joinWith [spTok] (cur :: word :: rest) := joinWith_glue [spTok] cur word rest
      have hfit : displayWidth cur + 1 + displayWidth word ≤ w := by
        rw [joinWith_cons [spTok] cur (word :: rest) (by simp), displayWidth_append,
          displayWidth_append] at hw
        have hle := displayWidth_le_joinWith [spTok] word rest
        have hsp : displayWidth [spTok] = 1 := by decide
        omega
      simp only [wrapGo, if_neg hne, if_pos hfit]
      rw [show cur ++ spTok :: word = cur ++ [spTok] ++ word by simp]
      rw [ih (cur ++ [spTok] ++ word) (by simp) (by rw [hglue]; exact hw), hglue]

theorem wrap_eq_self_of_fits (s : Str) (w : Int) (hnl : nlTok ∉ s)
    (hst : s = [] ∨ startsNonWs s = true) (hw : (displayWidth s : Int) ≤ w) :
    wrap s w = s := by
  rw [wrap]
  split
  · rfl
  · rename_i hpos
    rw [splitLines_no_nl s hnl]
    show joinLines [joinLines (wrapLine w.toNat s)] = s
    have hwn : displayWidth s ≤ w.toNat := by omega
    have hline : wrapLine w.toNat s = [s] := by
      rcases hst with hst | hst
      · subst hst; rfl
      · obtain ⟨t, rest, hs⟩ := List.exists_cons_of_ne_nil (startsNonWs_ne_nil hst)
        subst hs
        have htw : ¬ isWsTok t = true := by simpa [startsNonWs] using hst
        have htsp : t ≠ spTok := by intro hc; subst hc; exact htw (by decide)
        rw [wrapLine]
        rw [show splitWords (t :: rest)
              = (t :: (splitWords rest).headD []) :: (splitWords rest).tail by
            simp [splitWords, htsp]]
        simp only [wrapGo, if_pos rfl]
        have hjs := joinWith_splitWords (t :: rest)
        rw [show splitWords (t :: rest)
              = (t :: (splitWords rest).headD []) :: (splitWords rest).tail by
            simp [splitWords, htsp]] at hjs
        rw [wrapGo_single w.toNat _ _ (by simp) (by rw [hjs]; exact hwn), hjs]
        simp
    rw [hline]
    rfl

theorem descLines_ne_nil (strip : Bool) (w : Int) (r : Str) : descLines strip w r ≠ [] := by
  rw [descLines]
  simp [splitLines_ne_nil]

theorem descLines_trimmed {strip : Bool} {w : Int} {r e : Str}
    (he : e ∈ descLines strip w r) : trimStr e = e := by
  rw [descLines] at he
  obtain ⟨x, _, hx⟩ := List.mem_map.mp he
  rw [← hx, trimStr_idem]

theorem descLines_no_nl {strip : Bool} {w : Int} {r e : Str}
    (he : e ∈ descLines strip w r) : nlTok ∉ e := by
  rw [descLines] at he
  obtain ⟨x, hxm, hx⟩ := List.mem_map.mp he
  rw [← hx]
  exact not_mem_trimStr (mem_splitLines_no_nl hxm)

theorem headD_mem {α : Type} {l : List α} {d : α} (h : l ≠ []) : l.headD d ∈ l := by
  cases l with
  | nil => exact absurd rfl h
  | cons x xs => exact List.mem_cons_self x xs

theorem descLines_single (strip : Bool) (w : Int) (r : Str)
    (hnl : nlTok ∉ trimStr (stripIf strip r))
    (hw : (displayWidth (trimStr (stripIf strip r)) : Int) ≤ w) :
    descLines strip w r = [trimStr (stripIf strip r)] := by
  rw [descLines]
  have hst : trimStr (stripIf strip r) = [] ∨ startsNonWs (trimStr (stripIf strip r)) = true := by
    by_cases h : trimStr (stripIf strip r) = []
    · exact Or.inl h
    · exact Or.inr (startsNonWs_trimStr h)
  rw [wrap_eq_self_of_fits _ w hnl hst hw, splitLines_no_nl _ hnl]
  simp [trimStr_idem]

theorem startsNonWs_joinWith (sep x : Str) (ls : List Str) (hx : x ≠ []) :
    startsNonWs (joinWith sep (x :: ls)) = startsNonWs x := by
  cases ls with
  | nil => rfl
  | cons y ys =>
      rw [joinWith_cons sep x (y :: ys) (by simp), List.append_assoc,
        startsNonWs_append x _ hx]

theorem trimRight_append_nl (y : Str) : trimRight (y ++ [nlTok]) = trimRight y := by
  rw [trimRight, trimRight, List.reverse_append]
  simp only [List.reverse_cons, List.reverse_nil, List.nil_append, List.singleton_append]
  rw [List.dropWhile_cons_of_pos (by decide)]

theorem trimStr_cons_nl (s : Str) : trimStr (nlTok :: s) = trimStr s := by
  rw [trimStr, trimStr]
  have : trimLeft (nlTok :: s) = trimLeft s := by
    rw [trimLeft, trimLeft, List.dropWhile_cons_of_pos (by decide)]
  rw [this]

theorem neLines_cons_nl (s : Str) : neLines (nlTok :: s) = neLines s := by
  rw [neLines, neLines, splitLines_cons_nl]
  rfl

theorem all_ws_false_of_startsNonWs {s : Str} (h : startsNonWs s = true) :
    s.all isWsTok = false := by
  obtain ⟨t, rest, hs⟩ := List.exists_cons_of_ne_nil (startsNonWs_ne_nil h)
  subst hs
  have : ¬ isWsTok t = true := by simpa [startsNonWs] using h
  simp [List.all_cons, this]

theorem all_ws_false_of_endsNonWs {s : Str} (h : endsNonWs s = true) :
    s.all isWsTok = false := by
  rw [endsNonWs] at h
  obtain ⟨t, rest, hs⟩ := List.exists_cons_of_ne_nil (startsNonWs_ne_nil h)
  have htw : ¬ isWsTok t = true := by rw [hs] at h; simpa [startsNonWs] using h
  have htm : t ∈ s := by
    have : t ∈ s.reverse := by rw [hs]; exact List.mem_cons_self t rest
    simpa using this
  by_cases hall : s.all isWsTok
  · exact absurd (List.all_eq_true.mp hall t htm) htw
  · simpa using hall

theorem endsNonWs_indentStr (n : Nat) (s : Str) (h : endsNonWs s = true) :
    endsNonWs (indentStr n s) = true := by
  rw [indentStr]
  by_cases hnl : nlTok ∈ s
  · obtain ⟨a, b, hab, hb⟩ := exists_last_nl_split hnl
    subst hab
    have hbne : b ≠ [] := by
      intro hc; subst hc
      rw [endsNonWs_append a [nlTok] (by simp)] at h
      exact absurd h (by decide)
    have hbe : endsNonWs b = true := by
      rw [endsNonWs_append a _ (by simp),
        show nlTok :: b = [nlTok] ++ b from rfl, endsNonWs_append [nlTok] b hbne] at h
      exact h
    rw [splitLines_append_nl, splitLines_no_nl b hb, List.map_append, List.map_cons,
      List.map_nil, joinLines]
    apply endsNonWs_joinWith_concat
    rw [if_neg (by simp [all_ws_false_of_endsNonWs hbe])]
    rw [endsNonWs_append _ b hbne]
    exact hbe
  · rw [splitLines_no_nl s hnl, List.map_cons, List.map_nil]
    show endsNonWs (joinLines [if s.all isWsTok = true then s else spaces n ++ s]) = true
    rw [show joinLines [if s.all isWsTok = true then s else spaces n ++ s]
          = if s.all isWsTok = true then s else spaces n ++ s from rfl]
    rw [if_neg (by simp [all_ws_false_of_endsNonWs h])]
    rw [endsNonWs_append _ s (endsNonWs_ne_nil h)]
    exact h

theorem startsNonWs_wrap (s : Str) (w : Int) (h : startsNonWs s = true) :
    startsNonWs (wrap s w) = true := by
  rw [wrap]
  split
  · exact h
  · obtain ⟨t, rest, hs⟩ := List.exists_cons_of_ne_nil (startsNonWs_ne_nil h)
    subst hs
    have htw : ¬ isWsTok t = true := by simpa [startsNonWs] using h
    have htnl : t ≠ nlTok := by
      intro hc; subst hc; exact htw (by decide)
    have htsp : t ≠ spTok := by
      intro hc; subst hc; exact htw (by decide)
    rw [splitLines_cons_ne t rest htnl]
    obtain ⟨x, xs, hx⟩ := List.exists_cons_of_ne_nil (splitLines_ne_nil rest)
    rw [hx]
    simp only [List.headD_cons, List.tail_cons, List.map_cons]
    have hfirst : startsNonWs (joinLines (wrapLine w.toNat (t :: x))) = true := by
      rw [wrapLine]
      rw [show splitWords (t :: x)
            = (t :: (splitWords x).headD []) :: (splitWords x).tail by
          simp [splitWords, htsp]]
      simp only [wrapGo, if_pos rfl]
      apply startsNonWs_wrapGo
      simp [startsNonWs, htw]
    cases hmap : (xs.map fun l => joinLines (wrapLine w.toNat l)) with
    | nil => exact hfirst
    | cons m ms =>
        rw [joinLines, joinWith_cons nlS _ (m :: ms) (by simp)]
        rw [List.append_assoc,
          startsNonWs_append _ _ (startsNonWs_ne_nil hfirst)]
        exact hfirst

theorem compactRowText_startsNonWs (strip : Bool) (w : Int) (L : Nat) (p : Str × Str)
    (hl1 : trimStr (stripIf strip p.1) = stripIf strip p.1)
    (hl2 : stripIf strip p.1 ≠ []) :
    startsNonWs (compactRowText strip w L p) = true := by
  have hst : startsNonWs (stripIf strip p.1) = true := by
    rw [← hl1]
    exact startsNonWs_trimStr (by rw [hl1]; exact hl2)
  rw [compactRowText]
  split
  · rw [hl1]; exact hst
  · rw [List.append_assoc, startsNonWs_append _ _ hl2]
    exact hst

theorem compactRowText_ne_nil (strip : Bool) (w : Int) (L : Nat) (p : Str × Str)
    (hl1 : trimStr (stripIf strip p.1) = stripIf strip p.1)
    (hl2 : stripIf strip p.1 ≠ []) :
    compactRowText strip w L p ≠ [] :=
  startsNonWs_ne_nil (compactRowText_startsNonWs strip w L p hl1 hl2)

theorem compactRowText_endsNonWs (strip : Bool) (w : Int) (L : Nat) (p : Str × Str)
    (hl1 : trimStr (stripIf strip p.1) = stripIf strip p.1)
    (hl2 : stripIf strip p.1 ≠ [])
    (hd : p.2 ≠ [] → (descLines strip w p.2).headD [] ≠ []) :
    endsNonWs (compactRowText strip w L p) = true := by
  rw [compactRowText]
  split
  · exact endsNonWs_trimStr (by rw [hl1]; exact hl2)
  · rename_i h2
    have hfirst := hd h2
    have hmem : (descLines strip w p.2).headD [] ∈ descLines strip w p.2 :=
      headD_mem (descLines_ne_nil _ _ _)
    have htr := descLines_trimmed hmem
    rw [endsNonWs_append _ _ hfirst, ← htr]
    exact endsNonWs_trimStr (by rw [htr]; exact hfirst)

theorem stepRow_simple (strip : Bool) (w : Int) (L : Nat) (st : CState) (p : Str × Str)
    (htail : (descLines strip w p.2).tail = []) :
    stepRow strip w L st p = some (flushCur st, st.2.1, compactRowText strip w L p) := by
  rw [stepRow]
  by_cases h2 : p.2 = []
  · simp [h2, compactRowText]
  · cases hd : descLines strip w p.2 with
    | nil => exact absurd hd (descLines_ne_nil _ _ _)
    | cons first rest =>
        have hrest : rest = [] := by rw [hd] at htail; exact htail
        subst hrest
        simp [h2, hd, compactRowText]

theorem compactLoop_simple (strip : Bool) (w : Int) (L : Nat) :
    ∀ (rows : List (Str × Str)) (out cur : Str), cur ≠ [] →
    (∀ p ∈ rows, (descLines strip w p.2).tail = [] ∧ compactRowText strip w L p ≠ []) →
    ∃ st', compactLoop strip w L rows (out, nlS, cur) = some st' ∧
      flushCur st' = out ++ nlS ++ joinWith nlS (cur :: rows.map (compactRowText strip w L)) := by
  intro rows
  induction rows with
  | nil =>
      intro out cur hcur _
      refine ⟨(out, nlS, cur), rfl, ?_⟩
      rw [flushCur]
      simp [hcur, joinWith]
  | cons p rows ih =>
      intro out cur hcur hrows
      have hp := hrows p (List.mem_cons_self p rows)
      have hflush : flushCur (out, nlS, cur) = out ++ nlS ++ cur := by
        rw [flushCur]; simp [hcur]
      obtain ⟨st', hloop, hfl⟩ := ih (out ++ nlS ++ cur) (compactRowText strip w L p) hp.2
        (fun q hq => hrows q (List.mem_cons_of_mem p hq))
      refine ⟨st', ?_, ?_⟩
      · rw [compactLoop, stepRow_simple strip w L _ p hp.1, hflush]
        exact hloop
      · rw [hfl, List.map_cons,
          joinWith_cons nlS cur (compactRowText strip w L p :: rows.map _) (by simp)]
        simp [nlS]

theorem renderList_compact_simple (h : Help) (input : List (Option Str × Option Str))
    (opts : ListOpts) (mapped : List (Str × Str)) (L : Nat) (w : Int)
    (hmap : mapped = input.map fun p => (renderTemplate h p.1, renderTemplate h p.2))
    (hL : L = labelColWidth mapped) (hw : w = descWidth opts.maxWidth L)
    (hne : input ≠ []) (hml : opts.multiline = false)
    (hlab : ∀ p ∈ mapped, trimStr (stripIf opts.stripAnsi p.1) = stripIf opts.stripAnsi p.1
        ∧ stripIf opts.stripAnsi p.1 ≠ [])
    (hdesc : ∀ p ∈ mapped, (descLines opts.stripAnsi w p.2).tail = []
        ∧ (p.2 ≠ [] → (descLines opts.stripAnsi w p.2).headD [] ≠ [])) :
    renderList h input opts = joinWith nlS (mapped.map (compactRowText opts.stripAnsi w L)) := by
  obtain ⟨mw, ml, strip⟩ := opts
  simp only at hml
  subst hml
  dsimp only at hlab hdesc hw ⊢
  subst hw
  subst hL
  cases hm : mapped with
  | nil =>
      rw [hm] at hmap
      have : input = [] := by
        cases input with
        | nil => rfl
        | cons q qs => simp at hmap
      exact absurd this hne
  | cons p1 rest =>
      subst hm
      have hp1 := hlab p1 (List.mem_cons_self p1 rest)
      have hd1 := hdesc p1 (List.mem_cons_self p1 rest)
      have htext1 : compactRowText strip (descWidth mw (labelColWidth (p1 :: rest)))
          (labelColWidth (p1 :: rest)) p1 ≠ [] :=
        compactRowText_ne_nil _ _ _ _ hp1.1 hp1.2
      obtain ⟨st', hloop, hfl⟩ := compactLoop_simple strip
        (descWidth mw (labelColWidth (p1 :: rest))) (labelColWidth (p1 :: rest)) rest []
        (compactRowText strip (descWidth mw (labelColWidth (p1 :: rest)))
          (labelColWidth (p1 :: rest)) p1)
        htext1
        (fun q hq => ⟨(hdesc q (List.mem_cons_of_mem p1 hq)).1,
          compactRowText_ne_nil _ _ _ _ (hlab q (List.mem_cons_of_mem p1 hq)).1
            (hlab q (List.mem_cons_of_mem p1 hq)).2⟩)
      have hstep0 : stepRow strip (descWidth mw (labelColWidth (p1 :: rest)))
          (labelColWidth (p1 :: rest)) ([], nlS, []) p1
          = some ([], nlS, compactRowText strip (descWidth mw (labelColWidth (p1 :: rest)))
              (labelColWidth (p1 :: rest)) p1) := by
        rw [stepRow_simple _ _ _ _ p1 hd1.1]
        rfl
      rw [renderList, if_neg hne]
      simp only [← hmap, Bool.false_eq_true, if_false]
      rw [compactLoop, hstep0]
      dsimp only
      rw [hloop]
      dsimp only
      rw [hfl]
      have hJ : ([] : Str) ++ nlS ++ joinWith nlS
          (compactRowText strip (descWidth mw (labelColWidth (p1 :: rest)))
              (labelColWidth (p1 :: rest)) p1
            :: rest.map (compactRowText strip (descWidth mw (labelColWidth (p1 :: rest)))
              (labelColWidth (p1 :: rest))))
          = nlTok :: joinWith nlS
            ((p1 :: rest).map (compactRowText strip (descWidth mw (labelColWidth (p1 :: rest)))
              (labelColWidth (p1 :: rest)))) := by
        simp [nlS]
      rw [hJ, trimStr_cons_nl]
      set texts := (p1 :: rest).map
        (compactRowText strip (descWidth mw (labelColWidth (p1 :: rest)))
          (labelColWidth (p1 :: rest)))
        with htexts
      have hstarts : startsNonWs (joinWith nlS texts) = true := by
        rw [htexts, List.map_cons, startsNonWs_joinWith _ _ _ htext1]
        exact compactRowText_startsNonWs _ _ _ _ hp1.1 hp1.2
      have hends : endsNonWs (joinWith nlS texts) = true := by
        rcases List.eq_nil_or_concat (p1 :: rest) with hcon | ⟨ms, plast, hcon⟩
        · simp at hcon
        · have hcon2 : p1 :: rest = ms ++ [plast] := by
            rw [hcon]
            simp [List.concat_eq_append]
          have hmemlast : plast ∈ p1 :: rest := by rw [hcon2]; simp
          have hplab := hlab plast hmemlast
          have hpd := hdesc plast hmemlast
          have htx := congrArg (List.map (compactRowText strip
            (descWidth mw (labelColWidth (p1 :: rest))) (labelColWidth (p1 :: rest)))) hcon2
          rw [List.map_append, List.map_singleton] at htx
          rw [htexts, htx]
          exact endsNonWs_joinWith_concat nlS _ _
            (compactRowText_endsNonWs _ _ _ _ hplab.1 hplab.2 hpd.2)
      exact trimStr_eq_of_clean hstarts hends


theorem nl_not_mem_spaces (n : Nat) : nlTok ∉ spaces n := by
  intro hc
  rw [spaces] at hc
  exact absurd (List.eq_of_mem_replicate hc) (by decide)

theorem nl_mem_stripIf {b : Bool} {s : Str} (h : nlTok ∈ s) : nlTok ∈ stripIf b s := by
  cases b with
  | false => exact h
  | true => exact List.mem_filter.mpr ⟨h, rfl⟩

theorem compactRowText_no_nl (strip : Bool) (w : Int) (L : Nat) (p : Str × Str)
    (hl : nlTok ∉ stripIf strip p.1) : nlTok ∉ compactRowText strip w L p := by
  rw [compactRowText]
  split
  · exact not_mem_trimStr hl
  · intro hc
    rcases List.mem_append.mp hc with hc | hc
    · rcases List.mem_append.mp hc with hc | hc
      · exact hl hc
      · exact nl_not_mem_spaces _ hc
    · by_cases hne : (descLines strip w p.2).headD [] = []
      · rw [hne] at hc; cases hc
      · exact descLines_no_nl (headD_mem (descLines_ne_nil strip w p.2)) hc

theorem compactRowText_width (strip : Bool) (w : Int) (L : Nat) (p : Str × Str)
    (h2 : p.2 ≠ []) (hwl : displayWidth (stripIf strip p.1) ≤ L) :
    displayWidth (compactRowText strip w L p)
      = L + 2 + displayWidth ((descLines strip w p.2).headD []) := by
  rw [compactRowText, if_neg h2, displayWidth_append, displayWidth_append, displayWidth_spaces]
  omega

/-- Claim C3 counterexample: in compact mode, two consecutive rows that
both have a present, single-line description are joined by a single
newline, not by the blank line the claim prescribes for rows with
descriptions. -/
theorem C3_counterexample :
    renderList hId [(some (strL ("a")), some (strL ("x"))),
        (some (strL ("b")), some (strL ("y")))] { maxWidth := 40 }
      = strL ("a  x\nb  y")
    ∧ strL ("a  x\nb  y") ≠ strL ("a  x\n\nb  y") := by
  constructor
  · decide
  · decide

/-- Claim C3 (amended): in compact mode, while no row's description has
wrapped to more than one line, consecutive rows — those with
descriptions as well as those without — are joined by a single newline;
a blank-line separator appears only once some row's description has
wrapped to several lines.  Proved here for lists all of whose present
descriptions wrap to a single line: the whole output is the
single-newline join of the row texts. -/
theorem C3_compact_single_newline_join (h : Help) (input : List (Option Str × Option Str))
    (opts : ListOpts) (mapped : List (Str × Str)) (L : Nat) (w : Int)
    (hmap : mapped = input.map fun p => (renderTemplate h p.1, renderTemplate h p.2))
    (hL : L = labelColWidth mapped) (hw : w = descWidth opts.maxWidth L)
    (hne : input ≠ []) (hml : opts.multiline = false)
    (hlab : ∀ p ∈ mapped, trimStr (stripIf opts.stripAnsi p.1) = stripIf opts.stripAnsi p.1
        ∧ stripIf opts.stripAnsi p.1 ≠ [])
    (hdesc : ∀ p ∈ mapped, (descLines opts.stripAnsi w p.2).tail = []
        ∧ (p.2 ≠ [] → (descLines opts.stripAnsi w p.2).headD [] ≠ [])) :
    renderList h input opts = joinWith nlS (mapped.map (compactRowText opts.stripAnsi w L)) :=
  renderList_compact_simple h input opts mapped L w hmap hL hw hne hml hlab hdesc

/-- Claim C3 witness: the amended theorem applied to two concrete rows
with short descriptions. -/
theorem C3_witness :
    ([(some (strL ("a")), some (strL ("x"))), (some (strL ("b")), some (strL ("y")))]
        ≠ ([] : List (Option Str × Option Str)))
    ∧ renderList hId
        [(some (strL ("a")), some (strL ("x"))), (some (strL ("b")), some (strL ("y")))]
        { maxWidth := 40 }
      = joinWith nlS ([(strL ("a"), strL ("x")), (strL ("b"), strL ("y"))].map
          (compactRowText false (descWidth 40 (labelColWidth
              [(strL ("a"), strL ("x")), (strL ("b"), strL ("y"))]))
            (labelColWidth [(strL ("a"), strL ("x")), (strL ("b"), strL ("y"))]))) := by
  refine ⟨by decide, ?_⟩
  exact C3_compact_single_newline_join hId
    [(some (strL ("a")), some (strL ("x"))), (some (strL ("b")), some (strL ("y")))]
    { maxWidth := 40 }
    [(strL ("a"), strL ("x")), (strL ("b"), strL ("y"))]
    (labelColWidth [(strL ("a"), strL ("x")), (strL ("b"), strL ("y"))])
    (descWidth 40 (labelColWidth [(strL ("a"), strL ("x")), (strL ("b"), strL ("y"))]))
    (by decide) rfl rfl (by decide) rfl (by decide) (by decide)

/-- Claim C6: in compact mode, when every row's description is present
and short enough to fit within the description column
(`maxWidth - (labelColumnWidth + 2)`), no line of the rendered list —
in particular no rendered row — exceeds `maxWidth` display columns. -/
theorem C6_compact_row_width_bound (h : Help) (input : List (Option Str × Option Str))
    (opts : ListOpts) (mapped : List (Str × Str)) (L : Nat) (w : Int)
    (hmap : mapped = input.map fun p => (renderTemplate h p.1, renderTemplate h p.2))
    (hL : L = labelColWidth mapped) (hw : w = descWidth opts.maxWidth L)
    (hne : input ≠ []) (hml : opts.multiline = false)
    (hlab : ∀ p ∈ mapped, trimStr (stripIf opts.stripAnsi p.1) = stripIf opts.stripAnsi p.1
        ∧ stripIf opts.stripAnsi p.1 ≠ [] ∧ nlTok ∉ stripIf opts.stripAnsi p.1)
    (hdesc : ∀ p ∈ mapped, p.2 ≠ []
        ∧ trimStr (stripIf opts.stripAnsi p.2) ≠ []
        ∧ nlTok ∉ trimStr (stripIf opts.stripAnsi p.2)
        ∧ (displayWidth (trimStr (stripIf opts.stripAnsi p.2)) : Int) ≤ w) :
    ∀ line ∈ splitLines (renderList h input opts), (displayWidth line : Int) ≤ opts.maxWidth := by
  have hsingle : ∀ p ∈ mapped, descLines opts.stripAnsi w p.2
      = [trimStr (stripIf opts.stripAnsi p.2)] :=
    fun p hp => descLines_single _ _ _ (hdesc p hp).2.2.1 (hdesc p hp).2.2.2
  have hout := renderList_compact_simple h input opts mapped L w hmap hL hw hne hml
    (fun p hp => ⟨(hlab p hp).1, (hlab p hp).2.1⟩)
    (fun p hp => ⟨by rw [hsingle p hp]; rfl,
      fun _ => by rw [hsingle p hp]; exact (hdesc p hp).2.1⟩)
  rw [hout]
  have hmne : mapped ≠ [] := by
    intro hc
    rw [hc] at hmap
    cases input with
    | nil => exact hne rfl
    | cons q qs => simp at hmap
  have hnl : ∀ l ∈ mapped.map (compactRowText opts.stripAnsi w L), nlTok ∉ l := by
    intro l hl
    obtain ⟨p, hp, hp2⟩ := List.mem_map.mp hl
    rw [← hp2]
    exact compactRowText_no_nl _ _ _ _ (hlab p hp).2.2
  rw [show joinWith nlS (mapped.map (compactRowText opts.stripAnsi w L))
      = joinLines (mapped.map (compactRowText opts.stripAnsi w L)) from rfl]
  rw [splitLines_joinLines _ (by simp [hmne]) hnl]
  intro line hline
  obtain ⟨p, hp, hp2⟩ := List.mem_map.mp hline
  have hwl : displayWidth (stripIf opts.stripAnsi p.1) ≤ L := by
    rw [displayWidth_stripIf, hL]
    apply label_le_colWidth hp
    intro hc
    exact (hlab p hp).2.2 (nl_mem_stripIf hc)
  rw [← hp2, compactRowText_width _ _ _ _ (hdesc p hp).1 hwl, hsingle p hp]
  have hfit := (hdesc p hp).2.2.2
  rw [hw, descWidth] at hfit
  simp only [List.headD_cons]
  push_cast
  omega

/-- Claim C6 witness: the spec's own example rows at `maxWidth = 40`. -/
theorem C6_witness :
    ([(some (strL ("--force")), some (strL ("Overwrite existing files"))),
        (some (strL ("-h, --help")), some (strL ("show help")))]
        ≠ ([] : List (Option Str × Option Str)))
    ∧ ∀ line ∈ splitLines (renderList hId
        [(some (strL ("--force")), some (strL ("Overwrite existing files"))),
          (some (strL ("-h, --help")), some (strL ("show help")))] { maxWidth := 40 }),
      (displayWidth line : Int) ≤ (40 : Int) := by
  refine ⟨by decide, ?_⟩
  exact C6_compact_row_width_bound hId
    [(some (strL ("--force")), some (strL ("Overwrite existing files"))),
      (some (strL ("-h, --help")), some (strL ("show help")))]
    { maxWidth := 40 }
    [(strL ("--force"), strL ("Overwrite existing files")),
      (strL ("-h, --help"), strL ("show help"))]
    (labelColWidth [(strL ("--force"), strL ("Overwrite existing files")),
      (strL ("-h, --help"), strL ("show help"))])
    (descWidth 40 (labelColWidth [(strL ("--force"), strL ("Overwrite existing files")),
      (strL ("-h, --help"), strL ("show help"))]))
    (by decide) rfl rfl (by decide) rfl (by decide) (by decide)


theorem compactLoop_abort (strip : Bool) (w : Int) (L : Nat) :
    ∀ (rows : List (Str × Str)) (st : CState),
    (∃ p ∈ rows, p.2 ≠ [] ∧ 4 < (descLines strip w p.2).tail.length) →
    compactLoop strip w L rows st = none := by
  intro rows
  induction rows with
  | nil =>
      intro st h
      obtain ⟨p, hp, _⟩ := h
      cases hp
  | cons q rows ih =>
      intro st h
      by_cases habort : q.2 ≠ [] ∧ 4 < (descLines strip w q.2).tail.length
      · have hstep : stepRow strip w L st q = none := by
          rw [stepRow]
          rw [if_neg habort.1]
          cases hd : descLines strip w q.2 with
          | nil => exact absurd hd (descLines_ne_nil _ _ _)
          | cons first rest =>
              have hlen : 4 < rest.length := by
                have := habort.2
                rw [hd] at this
                exact this
              have hrne : rest ≠ [] := by
                intro hc
                rw [hc] at hlen
                simp at hlen
              simp [hrne, hlen]
        rw [compactLoop, hstep]
      · obtain ⟨p, hp, hpp⟩ := h
        rcases List.mem_cons.mp hp with heq | hp2
        · exact absurd (heq ▸ hpp) habort
        · rw [compactLoop]
          cases hst : stepRow strip w L st q with
          | none => rfl
          | some st2 => exact ih st2 ⟨p, hp2, hpp⟩

/-- Claim C1 counterexample: a row whose description wraps to exactly
five lines exceeds 4 wrapped lines, yet the compact rendering differs
from the stacked rendering: the source only falls back when more than 4
lines remain after the first. -/
theorem C1_counterexample :
    (∃ p ∈ [(strL ("L"), strL ("a b c d e"))], p.2 ≠ []
        ∧ 4 < (descLines false
            (descWidth 4 (labelColWidth [(strL ("L"), strL ("a b c d e"))]))
            p.2).length)
    ∧ renderList hId [(some (strL ("L")), some (strL ("a b c d e")))] { maxWidth := 4 }
        ≠ renderList hId [(some (strL ("L")), some (strL ("a b c d e")))]
            { maxWidth := 4, multiline := true } := by
  constructor
  · decide
  · decide

/-- Claim C1 (amended): if any row's wrapped description exceeds five
lines (more than four lines beyond the first) during compact-mode
layout, the entire `renderList` output equals exactly the output that
stacked (multiline) mode produces for the same input and options: the
switch is all-or-nothing. -/
theorem C1_compact_fallback_is_stacked (h : Help) (input : List (Option Str × Option Str))
    (opts : ListOpts) (mapped : List (Str × Str)) (L : Nat) (w : Int)
    (hmap : mapped = input.map fun p => (renderTemplate h p.1, renderTemplate h p.2))
    (hL : L = labelColWidth mapped) (hw : w = descWidth opts.maxWidth L)
    (hml : opts.multiline = false)
    (habort : ∃ p ∈ mapped, p.2 ≠ [] ∧ 5 < (descLines opts.stripAnsi w p.2).length) :
    renderList h input opts = renderList h input { opts with multiline := true } := by
  have hne : input ≠ [] := by
    intro hc
    subst hc
    simp at hmap
    obtain ⟨p, hp, _⟩ := habort
    rw [hmap] at hp
    cases hp
  obtain ⟨mw, ml, strip⟩ := opts
  simp only at hml
  subst hml
  dsimp only at hw habort ⊢
  subst hw
  subst hL
  rw [renderList, renderList, if_neg hne, if_neg hne]
  simp only [← hmap, Bool.false_eq_true, if_false, if_pos]
  have hnone : compactLoop strip (descWidth mw (labelColWidth mapped)) (labelColWidth mapped)
      mapped ([], nlS, []) = none := by
    apply compactLoop_abort
    obtain ⟨p, hp, h2, hlen⟩ := habort
    refine ⟨p, hp, h2, ?_⟩
    have hne2 := descLines_ne_nil strip (descWidth mw (labelColWidth mapped)) p.2
    have := List.length_tail (descLines strip (descWidth mw (labelColWidth mapped)) p.2)
    have hpos : 0 < (descLines strip (descWidth mw (labelColWidth mapped)) p.2).length := by
      cases hdl : descLines strip (descWidth mw (labelColWidth mapped)) p.2 with
      | nil => exact absurd hdl hne2
      | cons a as => simp
    omega
  rw [hnone]

/-- Claim C1 witness: a row wrapping to six description lines makes the
compact rendering equal the stacked rendering. -/
theorem C1_witness :
    (∃ p ∈ [(strL ("L"), strL ("a b c d e f"))], p.2 ≠ []
        ∧ 5 < (descLines false
            (descWidth 4 (labelColWidth [(strL ("L"), strL ("a b c d e f"))]))
            p.2).length)
    ∧ renderList hId [(some (strL ("L")), some (strL ("a b c d e f")))] { maxWidth := 4 }
      = renderList hId [(some (strL ("L")), some (strL ("a b c d e f")))]
          { ({ maxWidth := 4 } : ListOpts) with multiline := true } := by
  refine ⟨by decide, ?_⟩
  exact C1_compact_fallback_is_stacked hId
    [(some (strL ("L")), some (strL ("a b c d e f")))]
    { maxWidth := 4 }
    [(strL ("L"), strL ("a b c d e f"))]
    (labelColWidth [(strL ("L"), strL ("a b c d e f"))])
    (descWidth 4 (labelColWidth [(strL ("L"), strL ("a b c d e f"))]))
    (by decide) rfl rfl rfl (by decide)


theorem renderMultiline_skip (strip : Bool) (mw : Int) (rows1 rows2 : List (Str × Str)) :
    renderMultiline strip mw (rows1 ++ ([], []) :: rows2)
      = renderMultiline strip mw (rows1 ++ rows2) := by
  rw [renderMultiline, renderMultiline]
  congr 1
  rw [List.foldl_append, List.foldl_append, List.foldl_cons]
  congr 1

theorem stepRow_state_eq (strip : Bool) (w : Int) (L : Nat) (st1 st2 : CState) (p : Str × Str)
    (hf : flushCur st1 = flushCur st2) (hs : st1.2.1 = st2.2.1) :
    stepRow strip w L st1 p = stepRow strip w L st2 p := by
  rw [stepRow, stepRow, hf, hs]

theorem stepRow_empty (strip : Bool) (w : Int) (L : Nat) (st : CState) :
    stepRow strip w L st ([], []) = some (flushCur st, st.2.1, []) := by
  rw [stepRow]
  have h1 : stripIf strip ([] : Str) = [] := by cases strip <;> rfl
  simp [h1]
  rfl

theorem flushCur_nil_cur (out sp : Str) : flushCur (out, sp, []) = out := by
  simp [flushCur]

theorem compactLoop_skip (strip : Bool) (w : Int) (L : Nat) :
    ∀ (a b : List (Str × Str)) (st : CState),
    (∃ st1 st2, compactLoop strip w L (a ++ ([], []) :: b) st = some st1
        ∧ compactLoop strip w L (a ++ b) st = some st2
        ∧ trimStr (flushCur st1) = trimStr (flushCur st2))
    ∨ (compactLoop strip w L (a ++ ([], []) :: b) st = none
        ∧ compactLoop strip w L (a ++ b) st = none) := by
  intro a
  induction a with
  | nil =>
      intro b st
      cases b with
      | nil =>
          left
          refine ⟨(flushCur st, st.2.1, []), st, ?_, rfl, ?_⟩
          · rw [show ([] : List (Str × Str)) ++ ([], []) :: [] = [([], [])] from rfl]
            rw [compactLoop, stepRow_empty]
            rfl
          · rw [flushCur_nil_cur]
      | cons r rs =>
          have hstep : stepRow strip w L (flushCur st, st.2.1, []) r = stepRow strip w L st r :=
            stepRow_state_eq strip w L _ st r (flushCur_nil_cur _ _) rfl
          have hloops : compactLoop strip w L (r :: rs) (flushCur st, st.2.1, [])
              = compactLoop strip w L (r :: rs) st := by
            rw [compactLoop, compactLoop, hstep]
          have hfirst : compactLoop strip w L (([], []) :: r :: rs) st
              = compactLoop strip w L (r :: rs) st := by
            rw [compactLoop, stepRow_empty]
            exact hloops
          cases hres : compactLoop strip w L (r :: rs) st with
          | none =>
              right
              exact ⟨by rw [show ([] : List (Str × Str)) ++ ([], []) :: r :: rs
                  = ([], []) :: r :: rs from rfl, hfirst, hres], hres⟩
          | some st2 =>
              left
              exact ⟨st2, st2, by rw [show ([] : List (Str × Str)) ++ ([], []) :: r :: rs
                  = ([], []) :: r :: rs from rfl, hfirst, hres], hres, rfl⟩
  | cons q a ih =>
      intro b st
      rw [show (q :: a) ++ ([], []) :: b = q :: (a ++ ([], []) :: b) from rfl,
        show (q :: a) ++ b = q :: (a ++ b) from rfl, compactLoop, compactLoop]
      cases hst : stepRow strip w L st q with
      | none => right; exact ⟨rfl, rfl⟩
      | some st2 => exact ih b st2

/-- Claim C8: a row whose label and description are both absent
contributes nothing to the output — deleting it from the list leaves
`renderList` unchanged, in compact as well as stacked mode. -/
theorem C8_both_absent_row_skipped (h : Help) (opts : ListOpts)
    (rows1 rows2 : List (Option Str × Option Str)) :
    renderList h (rows1 ++ (none, none) :: rows2) opts
      = renderList h (rows1 ++ rows2) opts := by
  have htn : renderTemplate h none = [] := h.tmpl_nil
  set f := fun p : Option Str × Option Str => (renderTemplate h p.1, renderTemplate h p.2)
    with hf
  have hmapf : (rows1 ++ (none, none) :: rows2).map f
      = rows1.map f ++ (([], []) : Str × Str) :: rows2.map f := by
    rw [List.map_append, List.map_cons]
    rw [show f (none, none) = (([] : Str), ([] : Str)) by rw [hf]; simp [htn]]
  by_cases hz : rows1 ++ rows2 = []
  · obtain ⟨h1, h2⟩ := List.append_eq_nil.mp hz
    subst h1
    subst h2
    simp only [List.nil_append]
    rw [renderList, renderList, if_neg (by simp), if_pos rfl]
    simp only [List.map_cons, List.map_nil]
    rw [show renderTemplate h none = [] from htn]
    by_cases hml : opts.multiline = true
    · rw [if_pos hml]
      rw [renderMultiline]
      simp
      rfl
    · rw [if_neg hml]
      rw [compactLoop.eq_def]
      dsimp only
      rw [stepRow_empty]
      dsimp only
      rw [compactLoop]
      dsimp only
      rw [flushCur_nil_cur]
      rfl
  · have hne1 : rows1 ++ (none, none) :: rows2 ≠ [] := by simp
    rw [renderList, renderList, if_neg hne1, if_neg hz]
    simp only [← hf, hmapf, List.map_append]
    have hcol : labelColWidth (rows1.map f ++ ([], []) :: rows2.map f)
        = labelColWidth (rows1.map f ++ rows2.map f) := by
      rw [labelColWidth, labelColWidth, List.map_append, List.map_append, List.map_cons]
      rw [widestLine_joinLines, widestLine_joinLines]
      rw [List.map_append, List.map_append, List.map_cons]
      rw [foldr_max_append, foldr_max_append]
      have hzero : widestLine (([], []) : Str × Str).1 = 0 := by decide
      rw [hzero]
      simp
    by_cases hml : opts.multiline = true
    · rw [if_pos hml, if_pos hml, renderMultiline_skip]
    · rw [if_neg hml, if_neg hml, hcol]
      rcases compactLoop_skip opts.stripAnsi
          (descWidth opts.maxWidth (labelColWidth (rows1.map f ++ rows2.map f)))
          (labelColWidth (rows1.map f ++ rows2.map f))
          (rows1.map f) (rows2.map f) ([], nlS, []) with hcase | hcase
      · obtain ⟨st1, st2, hl1, hl2, heq⟩ := hcase
        rw [hl1, hl2]
        exact heq
      · rw [hcase.1, hcase.2]
        dsimp only
        exact renderMultiline_skip opts.stripAnsi opts.maxWidth (rows1.map f) (rows2.map f)

/-- Claim C10: both renderers dispatch to the two-column list renderer
exactly for a non-empty pair-list body; an empty pair list renders as an
empty body, indistinguishable from an empty prose-lines body, in any
surrounding article. -/
theorem C10_list_dispatch_iff_nonempty_pairs (h : Help) (title : Option Str)
    (ss1 ss2 : List Sec) (hd : Str) (ty : Option SType)
    (ps : List (Option Str × Option Str)) :
    (renderScreen h ⟨title, ss1 ++ ⟨hd, ty, Body.pairs []⟩ :: ss2⟩
        = renderScreen h ⟨title, ss1 ++ ⟨hd, ty, Body.strs []⟩ :: ss2⟩)
    ∧ (renderMarkdown h ⟨title, ss1 ++ ⟨hd, ty, Body.pairs []⟩ :: ss2⟩
        = renderMarkdown h ⟨title, ss1 ++ ⟨hd, ty, Body.strs []⟩ :: ss2⟩)
    ∧ (ps ≠ [] → sectionBodyScreen h ⟨hd, ty, Body.pairs ps⟩
        = renderList h ps { maxWidth := (h.termwidth : Int) - 2 })
    ∧ (ps ≠ [] → sectionBodyMd h ⟨hd, ty, Body.pairs ps⟩
        = nlS ++ (strL ("```") ++ nlS
            ++ renderList h ps { maxWidth := 98, stripAnsi := true } ++ nlS ++ strL ("```"))) := by
  refine ⟨?_, ?_, ?_, ?_⟩
  · rw [renderScreen, renderScreen]
    simp only [List.map_append, List.map_cons]
    rw [show renderSectionScreen h ⟨hd, ty, Body.pairs []⟩
        = renderSectionScreen h ⟨hd, ty, Body.strs []⟩ from rfl]
  · rw [renderMarkdown, renderMarkdown]
    simp only [List.map_append, List.map_cons]
    rw [show renderSectionMd h ⟨hd, ty, Body.pairs []⟩
        = renderSectionMd h ⟨hd, ty, Body.strs []⟩ from rfl]
  · intro hps
    rw [sectionBodyScreen, if_neg (by simp [bodyIsEmpty, hps])]
  · intro hps
    rw [sectionBodyMd, if_neg (by simp [bodyIsEmpty, hps])]

/-- Claim C10 witness: the dispatch equalities at a concrete one-pair
list. -/
theorem C10_witness :
    ([(some (strL ("-a")), some (strL ("on")))] ≠ ([] : List (Option Str × Option Str)))
    ∧ sectionBodyScreen hId ⟨strL ("flags"), none,
          Body.pairs [(some (strL ("-a")), some (strL ("on")))]⟩
      = renderList hId [(some (strL ("-a")), some (strL ("on")))]
          { maxWidth := (hId.termwidth : Int) - 2 }
    ∧ sectionBodyMd hId ⟨strL ("flags"), none,
          Body.pairs [(some (strL ("-a")), some (strL ("on")))]⟩
      = nlS ++ (strL ("```") ++ nlS
          ++ renderList hId [(some (strL ("-a")), some (strL ("on")))]
            { maxWidth := 98, stripAnsi := true } ++ nlS ++ strL ("```")) := by
  refine ⟨by decide, ?_, ?_⟩
  · exact (C10_list_dispatch_iff_nonempty_pairs hId none [] [] (strL ("flags")) none
      [(some (strL ("-a")), some (strL ("on")))]).2.2.1 (by decide)
  · exact (C10_list_dispatch_iff_nonempty_pairs hId none [] [] (strL ("flags")) none
      [(some (strL ("-a")), some (strL ("on")))]).2.2.2 (by decide)


theorem dropWhile_ws_ne_nil {s : Str} (h : ∃ tk ∈ s, ¬ isWsTok tk = true) :
    s.dropWhile isWsTok ≠ [] := by
  intro hc
  obtain ⟨tk, htm, htw⟩ := h
  exact htw (List.dropWhile_eq_nil_iff.mp hc tk htm)

theorem trimLeft_append_nonws {x : Str} (y : Str) (hx : ∃ tk ∈ x, ¬ isWsTok tk = true) :
    trimLeft (x ++ y) = trimLeft x ++ y := by
  rw [trimLeft, trimLeft, List.dropWhile_append]
  simp only [List.isEmpty_eq_true, dropWhile_ws_ne_nil hx, if_false]

theorem trimRight_append_nonws (x : Str) {y : Str} (hy : ∃ tk ∈ y, ¬ isWsTok tk = true) :
    trimRight (x ++ y) = x ++ trimRight y := by
  rw [trimRight, trimRight, List.reverse_append, List.dropWhile_append]
  have hne : y.reverse.dropWhile isWsTok ≠ [] := by
    apply dropWhile_ws_ne_nil
    obtain ⟨tk, htm, htw⟩ := hy
    exact ⟨tk, by simpa using htm, htw⟩
  simp only [List.isEmpty_eq_true, hne, if_false]
  rw [List.reverse_append, List.reverse_reverse]

theorem trimRight_append_allws (x : Str) {y : Str} (hy : ∀ tk ∈ y, isWsTok tk = true)
    (hx : endsNonWs x = true) : trimRight (x ++ y) = x := by
  rw [trimRight, List.reverse_append, List.dropWhile_append]
  have h1 : y.reverse.dropWhile isWsTok = [] :=
    List.dropWhile_eq_nil_iff.mpr (fun tk htk => hy tk (by simpa using htk))
  simp only [h1, List.isEmpty_nil, if_true]
  have h2 : x.reverse.dropWhile isWsTok = x.reverse := by
    cases hr : x.reverse with
    | nil => rfl
    | cons tk r =>
        rw [endsNonWs, hr] at hx
        exact List.dropWhile_cons_of_neg (by simpa [startsNonWs] using hx)
  rw [h2, List.reverse_reverse]

theorem nl_not_mem_stripAnsi {s : Str} (h : nlTok ∉ s) : nlTok ∉ stripAnsi s :=
  fun hc => h (List.mem_filter.mp hc).1

theorem nl_not_mem_trimLeft {s : Str} (h : nlTok ∉ s) : nlTok ∉ trimLeft s :=
  fun hc => h ((List.dropWhile_sublist _).subset hc)

theorem nl_not_mem_dashes (n : Nat) : nlTok ∉ dashes n := by
  intro hc
  rw [dashes] at hc
  exact absurd (List.eq_of_mem_replicate hc) (by decide)

theorem dash_mem_dashes {n : Nat} (h : 0 < n) : Tok.ch '-' ∈ dashes n := by
  rw [dashes]
  exact List.mem_replicate.mpr ⟨by omega, rfl⟩

theorem endsNonWs_dashes {n : Nat} (h : 0 < n) : endsNonWs (dashes n) = true := by
  rw [endsNonWs, dashes, List.reverse_replicate]
  cases n with
  | zero => exact absurd h (by omega)
  | succ k =>
      rw [List.replicate_succ]
      show (!isWsTok (Tok.ch '-')) = true
      decide

/-- Claim C4 counterexample: with a template substitution that shrinks
the title, the markdown dash underline does not match the rendered
title's display width (the source sizes it from the raw title). -/
theorem C4_counterexample :
    (splitLines (renderMarkdown hSub ⟨some (strL ("<bin>")), []⟩)).get? 1
      ≠ some (dashes (displayWidth
          (stripAnsi (renderTemplate hSub (some (strL ("<bin>"))))))) := by
  decide

/-- Claim C4 (amended): in markdown mode the rendered de-styled title is
followed by a line of dashes whose length equals the display width of
the RAW title (before template substitution), not of the rendered
title. -/
theorem C4_dash_underline_matches_raw_title (h : Help) (a : Article) (t : Str)
    (ht : a.title = some t) (hwt : 0 < displayWidth t)
    (hnl : nlTok ∉ h.tmpl t)
    (hany : ∃ tk ∈ stripAnsi (renderTemplate h (some t)), ¬ isWsTok tk = true) :
    (splitLines (renderMarkdown h a)).get? 1 = some (dashes (displayWidth t)) := by
  obtain ⟨title, secs⟩ := a
  simp only at ht
  subst ht
  rw [renderMarkdown]
  dsimp only
  set st2 := stripAnsi (renderTemplate h (some t)) with hst
  set dsh := dashes (displayWidth ((some t).getD [])) with hdsh
  set T2 := joinLines (([] : Str) :: secs.map (renderSectionMd h)) with hT2
  have hjoined : joinLines (([st2, dsh, []] : List Str) ++ secs.map (renderSectionMd h))
      = st2 ++ (nlS ++ (dsh ++ (nlS ++ T2))) := by
    rw [show ([st2, dsh, []] : List Str) ++ secs.map (renderSectionMd h)
        = st2 :: dsh :: ([] : Str) :: secs.map (renderSectionMd h) from rfl]
    rw [joinLines, joinWith_cons _ _ _ (by simp), joinWith_cons _ _ _ (by simp)]
    rw [hT2, joinLines]
    simp [List.append_assoc]
  rw [hjoined, trimStr]
  rw [trimLeft_append_nonws _ hany]
  have hgetd : (some t).getD [] = t := rfl
  have hdpos : 0 < displayWidth ((some t).getD []) := by rw [hgetd]; exact hwt
  have hdashmem : ∃ tk ∈ dsh, ¬ isWsTok tk = true := by
    refine ⟨Tok.ch '-', by rw [hdsh]; exact dash_mem_dashes hdpos, by decide⟩
  have hstnl : nlTok ∉ trimLeft st2 := nl_not_mem_trimLeft (nl_not_mem_stripAnsi hnl)
  have hdshnl : nlTok ∉ dsh := by rw [hdsh]; exact nl_not_mem_dashes _
  by_cases hc : ∃ tk ∈ T2, ¬ isWsTok tk = true
  · have hrt : trimRight (trimLeft st2 ++ (nlS ++ (dsh ++ (nlS ++ T2))))
        = trimLeft st2 ++ (nlS ++ (dsh ++ (nlS ++ trimRight T2))) := by
      rw [show trimLeft st2 ++ (nlS ++ (dsh ++ (nlS ++ T2)))
          = (trimLeft st2 ++ nlS ++ dsh ++ nlS) ++ T2 by simp [List.append_assoc]]
      rw [trimRight_append_nonws _ hc]
      simp [List.append_assoc]
    rw [hrt]
    rw [show trimLeft st2 ++ (nlS ++ (dsh ++ (nlS ++ trimRight T2)))
        = trimLeft st2 ++ nlTok :: (dsh ++ nlTok :: trimRight T2) by simp [nlS]]
    rw [splitLines_append_nl, splitLines_no_nl _ hstnl]
    rw [splitLines_append_nl, splitLines_no_nl _ hdshnl]
    rw [hdsh, hgetd]
    rfl
  · have hall : ∀ tk ∈ nlS ++ T2, isWsTok tk = true := by
      intro tk htk
      rcases List.mem_append.mp htk with htk | htk
      · rcases List.mem_singleton.mp htk with rfl
        decide
      · by_cases hw2 : isWsTok tk = true
        · exact hw2
        · exact absurd ⟨tk, htk, hw2⟩ hc
    have hrt : trimRight (trimLeft st2 ++ (nlS ++ (dsh ++ (nlS ++ T2))))
        = trimLeft st2 ++ nlS ++ dsh := by
      rw [show trimLeft st2 ++ (nlS ++ (dsh ++ (nlS ++ T2)))
          = (trimLeft st2 ++ nlS) ++ (dsh ++ (nlS ++ T2)) by simp [List.append_assoc]]
      have hy2 : ∃ tk ∈ dsh ++ (nlS ++ T2), ¬ isWsTok tk = true := by
        obtain ⟨tk, htm, htw⟩ := hdashmem
        exact ⟨tk, List.mem_append.mpr (Or.inl htm), htw⟩
      rw [trimRight_append_nonws _ hy2]
      rw [trimRight_append_allws dsh hall (by rw [hdsh]; exact endsNonWs_dashes hdpos)]
    rw [hrt]
    rw [show trimLeft st2 ++ nlS ++ dsh = trimLeft st2 ++ nlTok :: dsh by simp [nlS]]
    rw [splitLines_append_nl, splitLines_no_nl _ hstnl, splitLines_no_nl _ hdshnl]
    rw [hdsh, hgetd]
    rfl

/-- Claim C4 witness: the amended statement at the shrinking
substitution, where the dash count is the raw title's width 5, not the
rendered width 3. -/
theorem C4_witness :
    (0 < displayWidth (strL ("<bin>")))
    ∧ (splitLines (renderMarkdown hSub ⟨some (strL ("<bin>")), []⟩)).get? 1
      = some (dashes (displayWidth (strL ("<bin>")))) := by
  refine ⟨by decide, ?_⟩
  exact C4_dash_underline_matches_raw_title hSub ⟨some (strL ("<bin>")), []⟩
    (strL ("<bin>")) rfl (by decide) (by decide) (by decide)


theorem joinWith_nil_sep_cons (x : Str) (ls : List Str) :
    joinWith [] (x :: ls) = x ++ joinWith [] ls := by
  cases ls with
  | nil => simp [joinWith]
  | cons y ys => rw [joinWith_cons [] x (y :: ys) (by simp)]; simp

theorem multiline_foldl (strip : Bool) (mw : Int) :
    ∀ (rows : List (Str × Str)) (out : Str),
    (∀ p ∈ rows, p.1 ≠ [] ∧ p.2 ≠ []) →
    rows.foldl (fun out p => if p.1 = [] ∧ p.2 = [] then out
        else out ++ multilineRow strip mw p ++ nlS ++ nlS) out
    = out ++ joinWith [] (rows.map fun p => multilineRow strip mw p ++ nlS ++ nlS) := by
  intro rows
  induction rows with
  | nil => intro out _; simp [joinWith]
  | cons p rest ih =>
      intro out hr
      rw [List.foldl_cons]
      have hp := hr p (List.mem_cons_self p rest)
      rw [if_neg (by simp [hp.1])]
      rw [ih _ (fun q hq => hr q (List.mem_cons_of_mem p hq))]
      rw [List.map_cons, joinWith_nil_sep_cons]
      simp [List.append_assoc]

theorem joinWith_concat_sep (sep : Str) :
    ∀ (texts : List Str), texts ≠ [] →
    joinWith [] (texts.map (fun t => t ++ sep)) = joinWith sep texts ++ sep := by
  intro texts
  induction texts with
  | nil => intro hc; exact absurd rfl hc
  | cons t ts ih =>
      intro _
      cases ts with
      | nil => simp [joinWith]
      | cons t2 ts2 =>
          rw [List.map_cons, joinWith_nil_sep_cons, ih (by simp),
            joinWith_cons sep t (t2 :: ts2) (by simp)]
          simp [List.append_assoc]

theorem stripIf_nil (strip : Bool) : stripIf strip ([] : Str) = [] := by
  cases strip <;> rfl

theorem multilineRow_eq_stacked (strip : Bool) (mw : Int) (p : Str × Str)
    (h1 : p.1 ≠ []) (h2 : p.2 ≠ []) :
    multilineRow strip mw p = stackedRowText strip mw p := by
  rw [multilineRow, stackedRowText, if_pos h1, if_pos h2]
  simp [List.append_assoc]

theorem stackedRowText_startsNonWs (strip : Bool) (mw : Int) (p : Str × Str)
    (h1 : trimStr (stripIf strip p.1) ≠ []) :
    startsNonWs (stackedRowText strip mw p) = true := by
  rw [stackedRowText]
  have hw := startsNonWs_wrap _ mw (startsNonWs_trimStr h1)
  rw [List.append_assoc, startsNonWs_append _ _ (startsNonWs_ne_nil hw)]
  exact hw

theorem stackedRowText_endsNonWs (strip : Bool) (mw : Int) (p : Str × Str)
    (h2 : trimStr (stripIf strip p.2) ≠ []) :
    endsNonWs (stackedRowText strip mw p) = true := by
  rw [stackedRowText]
  have hw := endsNonWs_indentStr 4 _ (endsNonWs_wrap _ (mw - 2) (endsNonWs_trimStr h2))
  rw [endsNonWs_append _ _ (endsNonWs_ne_nil hw)]
  exact hw

theorem renderMultiline_rows (strip : Bool) (mw : Int) (input : List (Str × Str))
    (hne : input ≠ [])
    (hrows : ∀ p ∈ input, trimStr (stripIf strip p.1) ≠ []
        ∧ trimStr (stripIf strip p.2) ≠ []) :
    renderMultiline strip mw input
      = joinWith (nlS ++ nlS) (input.map (stackedRowText strip mw)) := by
  have hne12 : ∀ p ∈ input, p.1 ≠ [] ∧ p.2 ≠ [] := by
    intro p hp
    constructor
    · intro hc
      apply (hrows p hp).1
      rw [hc, stripIf_nil]
      rfl
    · intro hc
      apply (hrows p hp).2
      rw [hc, stripIf_nil]
      rfl
  rw [renderMultiline, multiline_foldl strip mw input [] hne12]
  have hmapeq : input.map (fun p => multilineRow strip mw p ++ nlS ++ nlS)
      = (input.map (stackedRowText strip mw)).map (fun t => t ++ (nlS ++ nlS)) := by
    rw [List.map_map]
    apply List.map_congr_left
    intro p hp
    show multilineRow strip mw p ++ nlS ++ nlS
        = stackedRowText strip mw p ++ (nlS ++ nlS)
    rw [multilineRow_eq_stacked strip mw p (hne12 p hp).1 (hne12 p hp).2]
    simp [List.append_assoc]
  rw [hmapeq, joinWith_concat_sep _ _ (by simp [hne]), List.nil_append]
  set texts := input.map (stackedRowText strip mw) with htexts
  have hJs : startsNonWs (joinWith (nlS ++ nlS) texts) = true := by
    cases hin : input with
    | nil => exact absurd hin hne
    | cons p1 rest =>
        have hp1 := hrows p1 (hin ▸ List.mem_cons_self p1 rest)
        have hs1 := stackedRowText_startsNonWs strip mw p1 hp1.1
        rw [htexts, hin, List.map_cons,
          startsNonWs_joinWith _ _ _ (startsNonWs_ne_nil hs1)]
        exact hs1
  have hJe : endsNonWs (joinWith (nlS ++ nlS) texts) = true := by
    rcases List.eq_nil_or_concat input with hcon | ⟨ms, plast, hcon⟩
    · exact absurd hcon hne
    · have hcon2 : input = ms ++ [plast] := by
        rw [hcon]
        simp [List.concat_eq_append]
      have hmemlast : plast ∈ input := by rw [hcon2]; simp
      have hpe := stackedRowText_endsNonWs strip mw plast (hrows plast hmemlast).2
      have htx := congrArg (List.map (stackedRowText strip mw)) hcon2
      rw [List.map_append, List.map_singleton] at htx
      rw [htexts, htx]
      exact endsNonWs_joinWith_concat _ _ _ hpe
  have hsplit : joinWith (nlS ++ nlS) texts ++ (nlS ++ nlS)
      = (joinWith (nlS ++ nlS) texts ++ [nlTok]) ++ [nlTok] := by
    simp [nlS]
  rw [hsplit, trimStr]
  rw [trimLeft_eq_self (by
    rw [startsNonWs_append _ _ (by simp [startsNonWs_ne_nil hJs]),
      startsNonWs_append _ _ (startsNonWs_ne_nil hJs)]
    exact hJs)]
  rw [trimRight_append_nl, trimRight_append_nl, trimRight_eq_self hJe]

/-- Claim C2 counterexample: in stacked mode a description is wrapped at
`maxWidth - 2`, not at `maxWidth - 4` as the claim states: at
`maxWidth = 9` the description `aaa bbb` stays on one line instead of
wrapping at width 5. -/
theorem C2_counterexample :
    renderList hId [(some (strL ("L")), some (strL ("aaa bbb")))]
        { maxWidth := 9, multiline := true }
      ≠ wrap (trimStr (strL ("L"))) 9 ++ nlS
          ++ indentStr 4 (wrap (trimStr (strL ("aaa bbb"))) (9 - 4))
    ∧ renderList hId [(some (strL ("L")), some (strL ("aaa bbb")))]
        { maxWidth := 9, multiline := true }
      = wrap (trimStr (strL ("L"))) 9 ++ nlS
          ++ indentStr 4 (wrap (trimStr (strL ("aaa bbb"))) (9 - 2)) := by
  constructor
  · decide
  · decide

/-- Claim C2 (amended): in stacked (multiline) mode, every row with a
present label and description emits the label wrapped at full
`maxWidth`, then the description wrapped to `maxWidth - 2` display
columns (not `maxWidth - 4`) and indented by 4 columns on the following
line(s); rows are separated by a blank line. -/
theorem C2_stacked_desc_wrapped_and_indented (h : Help)
    (input : List (Option Str × Option Str)) (opts : ListOpts) (mapped : List (Str × Str))
    (hmap : mapped = input.map fun p => (renderTemplate h p.1, renderTemplate h p.2))
    (hml : opts.multiline = true) (hne : input ≠ [])
    (hrows : ∀ p ∈ mapped, trimStr (stripIf opts.stripAnsi p.1) ≠ []
        ∧ trimStr (stripIf opts.stripAnsi p.2) ≠ []) :
    renderList h input opts
      = joinWith (nlS ++ nlS) (mapped.map (stackedRowText opts.stripAnsi opts.maxWidth)) := by
  obtain ⟨mw, ml, strip⟩ := opts
  simp only at hml
  subst hml
  dsimp only at hrows ⊢
  rw [renderList, if_neg hne]
  simp only [← hmap, if_pos]
  have hmne : mapped ≠ [] := by
    intro hc
    rw [hc] at hmap
    cases input with
    | nil => exact hne rfl
    | cons q qs => simp at hmap
  exact renderMultiline_rows strip mw mapped hmne hrows

/-- Claim C2 witness: the amended statement at one concrete row. -/
theorem C2_witness :
    ([(some (strL ("cmd")), some (strL ("does things fine")))]
        ≠ ([] : List (Option Str × Option Str)))
    ∧ renderList hId [(some (strL ("cmd")), some (strL ("does things fine")))]
        { maxWidth := 12, multiline := true }
      = joinWith (nlS ++ nlS) ([(strL ("cmd"), strL ("does things fine"))].map
          (stackedRowText false 12)) := by
  refine ⟨by decide, ?_⟩
  exact C2_stacked_desc_wrapped_and_indented hId
    [(some (strL ("cmd")), some (strL ("does things fine")))]
    { maxWidth := 12, multiline := true }
    [(strL ("cmd"), strL ("does things fine"))]
    (by decide) rfl (by decide) (by decide)


theorem escFree_append (a b : Str) : escFree (a ++ b) = (escFree a && escFree b) :=
  List.all_append

theorem escFree_stripAnsi (s : Str) : escFree (stripAnsi s) = true := by
  rw [escFree, List.all_eq_true]
  intro t ht
  have hf := (List.mem_filter.mp ht).2
  cases t with
  | ch c => rfl
  | esc n => exact absurd hf (by simp)

theorem escFree_sublist {a b : Str} (hsub : List.Sublist a b) (h : escFree b = true) :
    escFree a = true := by
  rw [escFree, List.all_eq_true] at h ⊢
  exact fun t ht => h t (hsub.subset ht)

theorem escFree_trimStr {s : Str} (h : escFree s = true) : escFree (trimStr s) = true :=
  escFree_sublist (trimStr_sublist s) h

theorem escFree_replicate (n : Nat) (c : Char) :
    escFree (List.replicate n (Tok.ch c)) = true := by
  rw [escFree, List.all_eq_true]
  intro t ht
  rw [List.eq_of_mem_replicate ht]

theorem escFree_spaces (n : Nat) : escFree (spaces n) = true := escFree_replicate n _

theorem escFree_nlS : escFree nlS = true := by decide

theorem mem_splitLines_subset {l s : Str} (h : l ∈ splitLines s) : ∀ t ∈ l, t ∈ s := by
  induction s generalizing l with
  | nil =>
      simp [splitLines] at h
      simp [h]
  | cons x s ih =>
      by_cases hx : x = nlTok
      · subst hx
        rw [splitLines_cons_nl] at h
        rcases List.mem_cons.mp h with h | h
        · simp [h]
        · exact fun t ht => List.mem_cons_of_mem _ (ih h t ht)
      · rw [splitLines_cons_ne x s hx] at h
        obtain ⟨y, ys, hy⟩ := List.exists_cons_of_ne_nil (splitLines_ne_nil s)
        rw [hy] at h
        simp only [List.headD_cons, List.tail_cons] at h
        rcases List.mem_cons.mp h with h | h
        · subst h
          intro t ht
          rcases List.mem_cons.mp ht with ht | ht
          · exact ht ▸ List.mem_cons_self x s
          · exact List.mem_cons_of_mem _ (ih (hy ▸ List.mem_cons_self y ys) t ht)
        · exact fun t ht => List.mem_cons_of_mem _ (ih (hy ▸ List.mem_cons_of_mem y h) t ht)

theorem mem_splitWords_subset {l s : Str} (h : l ∈ splitWords s) : ∀ t ∈ l, t ∈ s := by
  induction s generalizing l with
  | nil =>
      simp [splitWords] at h
      simp [h]
  | cons x s ih =>
      by_cases hx : x = spTok
      · subst hx
        rw [show splitWords (spTok :: s) = [] :: splitWords s by simp [splitWords]] at h
        rcases List.mem_cons.mp h with h | h
        · simp [h]
        · exact fun t ht => List.mem_cons_of_mem _ (ih h t ht)
      · rw [show splitWords (x :: s)
            = (x :: (splitWords s).headD []) :: (splitWords s).tail by
          simp [splitWords, hx]] at h
        obtain ⟨y, ys, hy⟩ := List.exists_cons_of_ne_nil (splitWords_ne_nil s)
        rw [hy] at h
        simp only [List.headD_cons, List.tail_cons] at h
        rcases List.mem_cons.mp h with h | h
        · subst h
          intro t ht
          rcases List.mem_cons.mp ht with ht | ht
          · exact ht ▸ List.mem_cons_self x s
          · exact List.mem_cons_of_mem _ (ih (hy ▸ List.mem_cons_self y ys) t ht)
        · exact fun t ht => List.mem_cons_of_mem _ (ih (hy ▸ List.mem_cons_of_mem y h) t ht)

theorem escFree_of_subset {a b : Str} (hsub : ∀ t ∈ a, t ∈ b) (h : escFree b = true) :
    escFree a = true := by
  rw [escFree, List.all_eq_true] at h ⊢
  exact fun t ht => h t (hsub t ht)

theorem escFree_joinWith {sep : Str} (hsep : escFree sep = true) :
    ∀ {ls : List Str}, (∀ l ∈ ls, escFree l = true) → escFree (joinWith sep ls) = true := by
  intro ls
  induction ls with
  | nil => intro _; rfl
  | cons x xs ih =>
      intro hl
      cases xs with
      | nil => exact hl x (List.mem_cons_self x [])
      | cons y ys =>
          rw [joinWith_cons sep x (y :: ys) (by simp), escFree_append, escFree_append]
          rw [hl x (List.mem_cons_self x _), hsep,
            ih (fun l hml => hl l (List.mem_cons_of_mem x hml))]
          rfl

theorem escFree_wrapGo (w : Nat) :
    ∀ (words : List Str) (cur : Str), (∀ l ∈ words, escFree l = true) →
    escFree cur = true → escFree (joinLines (wrapGo w words cur)) = true := by
  intro words
  induction words with
  | nil => intro cur _ hc; exact hc
  | cons word rest ih =>
      intro cur hw hc
      have hwd := hw word (List.mem_cons_self word rest)
      have hrest := fun l hl => hw l (List.mem_cons_of_mem word hl)
      rw [wrapGo]
      split
      · exact ih word hrest hwd
      · split
        · apply ih _ hrest
          rw [show cur ++ spTok :: word = cur ++ [spTok] ++ word by simp]
          rw [escFree_append, escFree_append, hc, hwd]
          rfl
        · rw [joinLines, joinWith_cons nlS cur _ (wrapGo_ne_nil w rest word)]
          rw [escFree_append, escFree_append, hc, escFree_nlS]
          have := ih word hrest hwd
          rw [joinLines] at this
          rw [this]
          rfl

theorem escFree_wrap {s : Str} (w : Int) (h : escFree s = true) :
    escFree (wrap s w) = true := by
  rw [wrap]
  split
  · exact h
  · apply escFree_joinWith escFree_nlS
    intro l hl
    obtain ⟨line, hline, hl2⟩ := List.mem_map.mp hl
    rw [← hl2, wrapLine]
    apply escFree_wrapGo
    · intro wd hwd
      exact escFree_of_subset
        (fun t ht => mem_splitLines_subset hline t (mem_splitWords_subset hwd t ht)) h
    · rfl

theorem escFree_splitLines_mem {s l : Str} (h : escFree s = true) (hl : l ∈ splitLines s) :
    escFree l = true :=
  escFree_of_subset (mem_splitLines_subset hl) h

theorem escFree_indentStr {s : Str} (n : Nat) (h : escFree s = true) :
    escFree (indentStr n s) = true := by
  rw [indentStr]
  apply escFree_joinWith escFree_nlS
  intro l hl
  obtain ⟨line, hline, hl2⟩ := List.mem_map.mp hl
  rw [← hl2]
  split
  · exact escFree_splitLines_mem h hline
  · rw [escFree_append, escFree_spaces, escFree_splitLines_mem h hline]
    rfl

theorem escFree_descLines {w : Int} {r e : Str} (he : e ∈ descLines true w r) :
    escFree e = true := by
  rw [descLines] at he
  obtain ⟨x, hxm, hx⟩ := List.mem_map.mp he
  apply hx ▸ escFree_trimStr
  apply escFree_splitLines_mem _ hxm
  exact escFree_wrap w (escFree_trimStr (escFree_stripAnsi r))

theorem stripIf_true (s : Str) : stripIf true s = stripAnsi s := rfl

theorem escFree_multilineRow (mw : Int) (p : Str × Str) :
    escFree (multilineRow true mw p) = true := by
  rw [multilineRow, escFree_append]
  have h1 : escFree (if p.1 ≠ [] then wrap (trimStr (stripIf true p.1)) mw else []) = true := by
    split
    · rw [stripIf_true]
      exact escFree_wrap mw (escFree_trimStr (escFree_stripAnsi p.1))
    · rfl
  have h2 : escFree (if p.2 ≠ []
      then nlS ++ indentStr 4 (wrap (trimStr (stripIf true p.2)) (mw - 2)) else []) = true := by
    split
    · rw [stripIf_true, escFree_append, escFree_nlS,
        escFree_indentStr 4 (escFree_wrap (mw - 2) (escFree_trimStr (escFree_stripAnsi p.2)))]
      rfl
    · rfl
  rw [h1, h2]
  rfl

theorem escFree_renderMultiline (mw : Int) (input : List (Str × Str)) :
    escFree (renderMultiline true mw input) = true := by
  rw [renderMultiline]
  apply escFree_trimStr
  have hfold : ∀ (rows : List (Str × Str)) (out : Str), escFree out = true →
      escFree (rows.foldl (fun out p => if p.1 = [] ∧ p.2 = [] then out
        else out ++ multilineRow true mw p ++ nlS ++ nlS) out) = true := by
    intro rows
    induction rows with
    | nil => intro out hout; exact hout
    | cons p rest ih =>
        intro out hout
        rw [List.foldl_cons]
        split
        · exact ih out hout
        · apply ih
          rw [escFree_append, escFree_append, escFree_append, hout,
            escFree_multilineRow mw p, escFree_nlS]
          rfl
  exact hfold input [] rfl

theorem escFree_stepRow {w : Int} {L : Nat} {st st2 : CState} {p : Str × Str}
    (hstep : stepRow true w L st p = some st2)
    (h1 : escFree st.1 = true) (hsp : escFree st.2.1 = true) (hcur : escFree st.2.2 = true) :
    escFree st2.1 = true ∧ escFree st2.2.1 = true ∧ escFree st2.2.2 = true := by
  have hflush : escFree (flushCur st) = true := by
    rw [flushCur]
    split
    · exact h1
    · rw [escFree_append, escFree_append, h1, hsp, hcur]
      rfl
  rw [stepRow] at hstep
  split at hstep
  · rw [← Option.some_inj.mp hstep]
    exact ⟨hflush, hsp, escFree_trimStr (escFree_stripAnsi p.1)⟩
  · rename_i h2
    cases hd : descLines true w p.2 with
    | nil => exact absurd hd (descLines_ne_nil _ _ _)
    | cons first rest =>
        rw [hd] at hstep
        dsimp only at hstep
        have hcur2 : escFree (stripIf true p.1
            ++ spaces (L + 2 - displayWidth (stripIf true p.1)) ++ first) = true := by
          rw [escFree_append, escFree_append, stripIf_true, escFree_stripAnsi, escFree_spaces,
            escFree_descLines (hd ▸ List.mem_cons_self first rest)]
          rfl
        split at hstep
        · rw [← Option.some_inj.mp hstep]
          exact ⟨hflush, hsp, hcur2⟩
        · split at hstep
          · exact absurd hstep (by simp)
          · rw [← Option.some_inj.mp hstep]
            refine ⟨hflush, by rw [escFree_append, escFree_nlS]; rfl, ?_⟩
            rw [escFree_append, escFree_append, hcur2, escFree_nlS]
            have hif : escFree (indentStr (L + 2) (joinLines rest)) = true := by
              apply escFree_indentStr
              apply escFree_joinWith escFree_nlS
              intro l hl
              exact escFree_descLines (hd ▸ List.mem_cons_of_mem first hl)
            rw [hif]
            rfl

theorem escFree_compactLoop {w : Int} {L : Nat} :
    ∀ (rows : List (Str × Str)) (st : CState) (st2 : CState),
    compactLoop true w L rows st = some st2 →
    escFree st.1 = true → escFree st.2.1 = true → escFree st.2.2 = true →
    escFree (flushCur st2) = true := by
  intro rows
  induction rows with
  | nil =>
      intro st st2 hloop h1 hsp hcur
      rw [compactLoop] at hloop
      rw [← Option.some_inj.mp hloop, flushCur]
      split
      · exact h1
      · rw [escFree_append, escFree_append, h1, hsp, hcur]
        rfl
  | cons p rest ih =>
      intro st st2 hloop h1 hsp hcur
      rw [compactLoop] at hloop
      cases hstep : stepRow true w L st p with
      | none => rw [hstep] at hloop; exact absurd hloop (by simp)
      | some st3 =>
          rw [hstep] at hloop
          dsimp only at hloop
          obtain ⟨g1, g2, g3⟩ := escFree_stepRow hstep h1 hsp hcur
          exact ih st3 st2 hloop g1 g2 g3

theorem escFree_renderList_stripped (h : Help) (ps : List (Option Str × Option Str))
    (mw : Int) (ml : Bool) :
    escFree (renderList h ps { maxWidth := mw, multiline := ml, stripAnsi := true }) = true := by
  rw [renderList]
  split
  · rfl
  · dsimp only
    split
    · exact escFree_renderMultiline mw _
    · set mapped := ps.map fun p => (renderTemplate h p.1, renderTemplate h p.2) with hm
      cases hloop : compactLoop true
          (descWidth mw (labelColWidth mapped)) (labelColWidth mapped) mapped ([], nlS, []) with
      | none => exact escFree_renderMultiline mw _
      | some st2 =>
          apply escFree_trimStr
          exact escFree_compactLoop mapped _ st2 hloop rfl escFree_nlS rfl


theorem escFree_strL (s : String) : escFree (strL s) = true := by
  rw [strL, escFree, List.all_eq_true]
  intro t ht
  obtain ⟨c, _, hc⟩ := List.mem_map.mp ht
  rw [← hc]

theorem escFree_toLowerStr {s : Str} (h : escFree s = true) :
    escFree (toLowerStr s) = true := by
  rw [toLowerStr, escFree, List.all_eq_true]
  intro t ht
  obtain ⟨u, hu, huv⟩ := List.mem_map.mp ht
  rw [escFree, List.all_eq_true] at h
  have hok := h u hu
  cases u with
  | ch c => rw [← huv]
  | esc n => exact absurd hok (by simp)

theorem escFree_capitalize {s : Str} (h : escFree s = true) :
    escFree (capitalize s) = true := by
  rw [capitalize]
  have hlow := escFree_toLowerStr h
  cases htl : toLowerStr s with
  | nil => rfl
  | cons t rest =>
      rw [htl] at hlow
      cases t with
      | ch c =>
          rw [escFree, List.all_cons] at hlow ⊢
          exact hlow
      | esc n =>
          rw [escFree, List.all_cons] at hlow
          exact absurd hlow (by simp)

theorem escFree_sectionBodyMd (h : Help) (s : Sec) :
    escFree (sectionBodyMd h s) = true := by
  rw [sectionBodyMd, escFree_append, escFree_nlS]
  simp only [Bool.true_and]
  split
  · rfl
  · cases hb : s.body with
    | pairs ps =>
        simp [escFree_append, escFree_strL, escFree_nlS,
          escFree_renderList_stripped h ps 98 false]
    | str t => exact escFree_wrap 98 (escFree_stripAnsi _)
    | strs ls => exact escFree_wrap 98 (escFree_stripAnsi _)

theorem escFree_renderSectionMd (h : Help) (s : Sec)
    (hh : escFree s.heading = true) : escFree (renderSectionMd h s) = true := by
  rw [renderSectionMd]
  rw [escFree_append, escFree_nlS]
  simp only [Bool.and_true]
  apply escFree_joinWith escFree_nlS
  intro l hl
  have hl2 := List.mem_filter.mp hl
  rcases List.mem_cons.mp hl2.1 with hcase | hcase
  · subst hcase
    simp [escFree_append, escFree_strL, escFree_capitalize hh]
  · rcases List.mem_cons.mp hcase with hcase | hcase
    · subst hcase
      split
      · simp [escFree_append, escFree_strL, escFree_sectionBodyMd h s]
      · exact escFree_sectionBodyMd h s
    · cases hcase

/-- Claim C5 counterexample: a styling sequence inside a section heading
survives into the markdown output: markdown output is not styling-free
for every styled input. -/
theorem C5_counterexample :
    escFree (renderMarkdown hId ⟨some (strL ("t")),
      [⟨Tok.esc 7 :: strL ("head"), none, Body.str (strL ("x"))⟩]⟩) = false := by
  decide

/-- Claim C5 (amended): markdown output contains no raw styling
sequences provided every section heading is styling-free; styling in the
title, labels, descriptions and prose bodies is always stripped, but
headings are emitted without de-styling. -/
theorem C5_markdown_styling_free (h : Help) (a : Article)
    (hh : ∀ s ∈ a.sections, escFree s.heading = true) :
    escFree (renderMarkdown h a) = true := by
  rw [renderMarkdown]
  apply escFree_trimStr
  apply escFree_joinWith escFree_nlS
  intro l hl
  rcases List.mem_append.mp hl with hl | hl
  · rcases List.mem_cons.mp hl with hcase | hl
    · exact hcase ▸ escFree_stripAnsi _
    · rcases List.mem_cons.mp hl with hcase | hl
      · exact hcase ▸ escFree_replicate _ _
      · rcases List.mem_cons.mp hl with hcase | hl
        · exact hcase ▸ rfl
        · cases hl
  · obtain ⟨s, hs, hl2⟩ := List.mem_map.mp hl
    exact hl2 ▸ escFree_renderSectionMd h s (hh s hs)

/-- Claim C5 witness: an article styled everywhere except in the
headings renders styling-free markdown. -/
theorem C5_witness :
    (∀ s ∈ [(⟨strL ("flags"), none,
          Body.pairs [(some (Tok.esc 3 :: strL ("-a")), some (strL ("on")))]⟩ : Sec),
        ⟨strL ("about"), none, Body.str (Tok.esc 5 :: strL ("text"))⟩],
      escFree (Sec.heading s) = true)
    ∧ escFree (renderMarkdown hId ⟨some (Tok.esc 1 :: strL ("ttl")),
        [⟨strL ("flags"), none,
            Body.pairs [(some (Tok.esc 3 :: strL ("-a")), some (strL ("on")))]⟩,
          ⟨strL ("about"), none, Body.str (Tok.esc 5 :: strL ("text"))⟩]⟩) = true := by
  refine ⟨by decide, ?_⟩
  exact C5_markdown_styling_free hId
    ⟨some (Tok.esc 1 :: strL ("ttl")),
      [⟨strL ("flags"), none,
          Body.pairs [(some (Tok.esc 3 :: strL ("-a")), some (strL ("on")))]⟩,
        ⟨strL ("about"), none, Body.str (Tok.esc 5 :: strL ("text"))⟩]⟩
    (by decide)


theorem flushCur_ne (out sp cur : Str) (hcur : cur ≠ []) :
    flushCur (out, sp, cur) = out ++ sp ++ cur := by
  rw [flushCur]
  simp [hcur]

theorem neLines_flush {out sp cur : Str} (hsp : sp = nlS ∨ sp = nlS ++ nlS)
    (hcur : cur ≠ []) :
    neLines (flushCur (out, sp, cur)) = neLines out ++ neLines cur := by
  rw [flushCur_ne out sp cur hcur]
  rcases hsp with rfl | rfl
  · rw [show out ++ nlS ++ cur = out ++ nlTok :: cur by simp [nlS]]
    exact neLines_append_nl out cur
  · rw [show out ++ (nlS ++ nlS) ++ cur = out ++ nlTok :: (nlTok :: cur) by simp [nlS]]
    rw [neLines_append_nl, neLines_cons_nl]

theorem dropWhile_ws_replicate_nl (j : Nat) (y : Str) :
    (List.replicate j nlTok ++ y).dropWhile isWsTok = y.dropWhile isWsTok := by
  induction j with
  | zero => rfl
  | succ k ih =>
      rw [List.replicate_succ, List.cons_append,
        List.dropWhile_cons_of_pos (by decide)]
      exact ih

theorem neLines_replicate_nl (j : Nat) (y : Str) :
    neLines (List.replicate j nlTok ++ y) = neLines y := by
  induction j with
  | zero => rfl
  | succ k ih =>
      rw [List.replicate_succ, List.cons_append, neLines_cons_nl]
      exact ih

theorem indentStr_joinLines (n : Nat) (ls : List Str) (hne : ls ≠ [])
    (hnl : ∀ l ∈ ls, nlTok ∉ l) (hs : ∀ l ∈ ls, startsNonWs l = true) :
    indentStr n (joinLines ls) = joinLines (ls.map fun l => spaces n ++ l) := by
  rw [indentStr, splitLines_joinLines ls hne hnl]
  congr 1
  apply List.map_congr_left
  intro l hl
  rw [if_neg (by simp [all_ws_false_of_startsNonWs (hs l hl)])]

theorem rowCur_single (strip : Bool) (w : Int) (L : Nat) (p : Str × Str)
    (hl1 : trimStr (stripIf strip p.1) = stripIf strip p.1)
    (hl2 : stripIf strip p.1 ≠ [])
    (hl3 : nlTok ∉ stripIf strip p.1)
    (h2 : p.2 ≠ [])
    (hnn : ∀ e ∈ descLines strip w p.2, e ≠ [])
    (first : Str) (rest : List Str) (hd : descLines strip w p.2 = first :: rest) :
    startsNonWs (stripIf strip p.1
        ++ spaces (L + 2 - displayWidth (stripIf strip p.1)) ++ first) = true
    ∧ endsNonWs (stripIf strip p.1
        ++ spaces (L + 2 - displayWidth (stripIf strip p.1)) ++ first) = true
    ∧ neLines (stripIf strip p.1
        ++ spaces (L + 2 - displayWidth (stripIf strip p.1)) ++ first)
      = [stripIf strip p.1 ++ spaces (L + 2 - displayWidth (stripIf strip p.1)) ++ first]
    ∧ stripIf strip p.1 ++ spaces (L + 2 - displayWidth (stripIf strip p.1)) ++ first
      = compactRowText strip w L p := by
  have hfm : first ∈ descLines strip w p.2 := hd ▸ List.mem_cons_self first rest
  have hfne : first ≠ [] := hnn first hfm
  have hftr : trimStr first = first := descLines_trimmed hfm
  have hfnl : nlTok ∉ first := descLines_no_nl hfm
  have hls : startsNonWs (stripIf strip p.1) = true := by
    rw [← hl1]
    exact startsNonWs_trimStr (by rw [hl1]; exact hl2)
  have htnl : nlTok ∉ stripIf strip p.1
      ++ spaces (L + 2 - displayWidth (stripIf strip p.1)) ++ first := by
    intro hc
    rcases List.mem_append.mp hc with hc | hc
    · rcases List.mem_append.mp hc with hc | hc
      · exact hl3 hc
      · exact nl_not_mem_spaces _ hc
    · exact hfnl hc
  refine ⟨?_, ?_, ?_, ?_⟩
  · rw [startsNonWs_append _ _ (by simp [hl2]), startsNonWs_append _ _ hl2]
    exact hls
  · rw [endsNonWs_append _ _ hfne]
    rw [← hftr]
    exact endsNonWs_trimStr (by rw [hftr]; exact hfne)
  · exact neLines_no_nl _ htnl (by simp [hl2])
  · rw [compactRowText, if_neg h2, hd]
    simp

theorem rowCur_multi (strip : Bool) (w : Int) (L : Nat) (p : Str × Str)
    (hl1 : trimStr (stripIf strip p.1) = stripIf strip p.1)
    (hl2 : stripIf strip p.1 ≠ [])
    (hl3 : nlTok ∉ stripIf strip p.1)
    (h2 : p.2 ≠ [])
    (hnn : ∀ e ∈ descLines strip w p.2, e ≠ [])
    (first : Str) (rest : List Str) (hd : descLines strip w p.2 = first :: rest)
    (hrne : rest ≠ []) :
    startsNonWs (stripIf strip p.1
        ++ spaces (L + 2 - displayWidth (stripIf strip p.1)) ++ first
        ++ nlS ++ indentStr (L + 2) (joinLines rest)) = true
    ∧ endsNonWs (stripIf strip p.1
        ++ spaces (L + 2 - displayWidth (stripIf strip p.1)) ++ first
        ++ nlS ++ indentStr (L + 2) (joinLines rest)) = true
    ∧ neLines (stripIf strip p.1
        ++ spaces (L + 2 - displayWidth (stripIf strip p.1)) ++ first
        ++ nlS ++ indentStr (L + 2) (joinLines rest))
      = compactRowLines strip w L p := by
  obtain ⟨hts, hte, htn, htx⟩ := rowCur_single strip w L p hl1 hl2 hl3 h2 hnn first rest hd
  have hrprops : ∀ l ∈ rest, l ≠ [] ∧ nlTok ∉ l ∧ startsNonWs l = true ∧ endsNonWs l = true := by
    intro l hl
    have hm : l ∈ descLines strip w p.2 := hd ▸ List.mem_cons_of_mem first hl
    have h0 := hnn l hm
    have htr := descLines_trimmed hm
    refine ⟨h0, descLines_no_nl hm, ?_, ?_⟩
    · rw [← htr]; exact startsNonWs_trimStr (by rw [htr]; exact h0)
    · rw [← htr]; exact endsNonWs_trimStr (by rw [htr]; exact h0)
  have hJe : endsNonWs (joinLines rest) = true := by
    rcases List.eq_nil_or_concat rest with hcon | ⟨ms, rl, hcon⟩
    · exact absurd hcon hrne
    · have hcon2 : rest = ms ++ [rl] := by rw [hcon]; simp [List.concat_eq_append]
      have hmem : rl ∈ rest := by rw [hcon2]; simp
      rw [joinLines, hcon2]
      exact endsNonWs_joinWith_concat nlS ms rl (hrprops rl hmem).2.2.2
  have hInd : indentStr (L + 2) (joinLines rest)
      = joinLines (rest.map fun l => spaces (L + 2) ++ l) :=
    indentStr_joinLines (L + 2) rest hrne (fun l hl => (hrprops l hl).2.1)
      (fun l hl => (hrprops l hl).2.2.1)
  have hIe : endsNonWs (indentStr (L + 2) (joinLines rest)) = true :=
    endsNonWs_indentStr (L + 2) _ hJe
  have hIne : indentStr (L + 2) (joinLines rest) ≠ [] := endsNonWs_ne_nil hIe
  refine ⟨?_, ?_, ?_⟩
  · rw [List.append_assoc, List.append_assoc,
      startsNonWs_append _ _ (by simp [hl2]), startsNonWs_append _ _ hl2]
    rw [← hl1]
    exact startsNonWs_trimStr (by rw [hl1]; exact hl2)
  · rw [endsNonWs_append _ _ hIne]
    exact hIe
  · rw [show stripIf strip p.1 ++ spaces (L + 2 - displayWidth (stripIf strip p.1)) ++ first
        ++ nlS ++ indentStr (L + 2) (joinLines rest)
        = (stripIf strip p.1 ++ spaces (L + 2 - displayWidth (stripIf strip p.1)) ++ first)
          ++ nlTok :: indentStr (L + 2) (joinLines rest) by simp [nlS]]
    rw [neLines_append_nl, htn, hInd]
    have hmapnl : ∀ l ∈ rest.map fun l => spaces (L + 2) ++ l, nlTok ∉ l := by
      intro l hl
      obtain ⟨x, hx, hx2⟩ := List.mem_map.mp hl
      rw [← hx2]
      intro hc
      rcases List.mem_append.mp hc with hc | hc
      · exact nl_not_mem_spaces _ hc
      · exact (hrprops x hx).2.1 hc
    rw [neLines, splitLines_joinLines _ (by simp [hrne]) hmapnl]
    rw [List.filter_eq_self.mpr (by
      intro l hl
      obtain ⟨x, hx, hx2⟩ := List.mem_map.mp hl
      rw [← hx2]
      simp [spaces])]
    rw [compactRowLines, ← htx, hd]
    simp


theorem compactLoop_full (strip : Bool) (w : Int) (L : Nat) :
    ∀ (rows : List (Str × Str)) (out sp cur : Str),
    (sp = nlS ∨ sp = nlS ++ nlS) →
    (cur = [] ∨ (startsNonWs cur = true ∧ endsNonWs cur = true)) →
    (out = [] ∨ ∃ j r, (j = 1 ∨ j = 2) ∧ out = List.replicate j nlTok ++ r
        ∧ startsNonWs r = true) →
    (∀ p ∈ rows,
      (trimStr (stripIf strip p.1) = stripIf strip p.1 ∧ stripIf strip p.1 ≠ []
        ∧ nlTok ∉ stripIf strip p.1)
      ∧ p.2 ≠ [] ∧ (descLines strip w p.2).tail.length ≤ 4
      ∧ (∀ e ∈ descLines strip w p.2, e ≠ [])) →
    ∃ out2 sp2 cur2, compactLoop strip w L rows (out, sp, cur) = some (out2, sp2, cur2)
      ∧ (sp2 = nlS ∨ sp2 = nlS ++ nlS)
      ∧ (cur2 = [] ∨ (startsNonWs cur2 = true ∧ endsNonWs cur2 = true))
      ∧ (out2 = [] ∨ ∃ j r, (j = 1 ∨ j = 2) ∧ out2 = List.replicate j nlTok ++ r
          ∧ startsNonWs r = true)
      ∧ (rows ≠ [] → cur2 ≠ [])
      ∧ (rows = [] → cur2 = cur)
      ∧ neLines (flushCur (out2, sp2, cur2))
          = neLines (flushCur (out, sp, cur)) ++ rows.flatMap (compactRowLines strip w L) := by
  intro rows
  induction rows with
  | nil =>
      intro out sp cur hsp hcur hout _
      exact ⟨out, sp, cur, rfl, hsp, hcur, hout, fun hc => absurd rfl hc, fun _ => rfl, by simp⟩
  | cons p rest ih =>
      intro out sp cur hsp hcur hout hrows
      obtain ⟨⟨hl1, hl2, hl3⟩, h2, hlen, hnn⟩ := hrows p (List.mem_cons_self p rest)
      have hrest := fun q hq => hrows q (List.mem_cons_of_mem p hq)
      have hout1 : flushCur (out, sp, cur) = [] ∨ ∃ j r, (j = 1 ∨ j = 2)
          ∧ flushCur (out, sp, cur) = List.replicate j nlTok ++ r ∧ startsNonWs r = true := by
        rcases hcur with rfl | ⟨hcs, hce⟩
        · rw [flushCur_nil_cur]
          exact hout
        · have hcne : cur ≠ [] := startsNonWs_ne_nil hcs
          rw [flushCur_ne out sp cur hcne]
          right
          rcases hout with rfl | ⟨j, r, hj, hor, hrs⟩
          · rcases hsp with rfl | rfl
            · exact ⟨1, cur, Or.inl rfl, by simp [nlS], hcs⟩
            · exact ⟨2, cur, Or.inr rfl, by simp [nlS, List.replicate], hcs⟩
          · refine ⟨j, r ++ sp ++ cur, hj, ?_, ?_⟩
            · rw [hor]
              simp [List.append_assoc]
            · rw [List.append_assoc, startsNonWs_append _ _ (startsNonWs_ne_nil hrs)]
              exact hrs
      cases hd : descLines strip w p.2 with
      | nil => exact absurd hd (descLines_ne_nil _ _ _)
      | cons first rest2 =>
          by_cases hr2 : rest2 = []
          · subst hr2
            obtain ⟨hts, hte, htn, htx⟩ :=
              rowCur_single strip w L p hl1 hl2 hl3 h2 hnn first [] hd
            have hnep : compactRowText strip w L p ≠ [] := by
              rw [← htx]
              exact startsNonWs_ne_nil hts
            have hstep : stepRow strip w L (out, sp, cur) p
                = some (flushCur (out, sp, cur), sp, compactRowText strip w L p) := by
              rw [stepRow_simple strip w L (out, sp, cur) p (by rw [hd]; rfl)]
            obtain ⟨out2, sp2, cur2, hloop, i1, i2, i3, i4, i5, i6⟩ :=
              ih (flushCur (out, sp, cur)) sp (compactRowText strip w L p) hsp
                (Or.inr ⟨htx ▸ hts, htx ▸ hte⟩) hout1 hrest
            refine ⟨out2, sp2, cur2, ?_, i1, i2, i3, ?_, ?_, ?_⟩
            · rw [compactLoop, hstep]
              exact hloop
            · intro _
              by_cases hre : rest = []
              · rw [i5 hre]
                exact hnep
              · exact i4 hre
            · intro hc
              exact absurd hc (by simp)
            · rw [i6, neLines_flush hsp hnep]
              have hnlp : neLines (compactRowText strip w L p)
                  = [compactRowText strip w L p] := by
                rw [← htx]
                exact htn
              rw [hnlp, List.flatMap_cons,
                show compactRowLines strip w L p = [compactRowText strip w L p] from by
                  rw [compactRowLines, hd]; simp]
              simp [List.append_assoc]
          · have hlen2 : ¬ 4 < rest2.length := by
              rw [hd] at hlen
              simp at hlen
              omega
            obtain ⟨hms, hme, hmn⟩ :=
              rowCur_multi strip w L p hl1 hl2 hl3 h2 hnn first rest2 hd hr2
            have hstep : stepRow strip w L (out, sp, cur) p
                = some (flushCur (out, sp, cur), nlS ++ nlS,
                    stripIf strip p.1 ++ spaces (L + 2 - displayWidth (stripIf strip p.1))
                      ++ first ++ nlS ++ indentStr (L + 2) (joinLines rest2)) := by
              simp only [stepRow, if_neg h2, hd]
              rw [if_neg hr2, if_neg hlen2]
            obtain ⟨out2, sp2, cur2, hloop, i1, i2, i3, i4, i5, i6⟩ :=
              ih (flushCur (out, sp, cur)) (nlS ++ nlS)
                (stripIf strip p.1 ++ spaces (L + 2 - displayWidth (stripIf strip p.1))
                  ++ first ++ nlS ++ indentStr (L + 2) (joinLines rest2))
                (Or.inr rfl) (Or.inr ⟨hms, hme⟩) hout1 hrest
            refine ⟨out2, sp2, cur2, ?_, i1, i2, i3, ?_, ?_, ?_⟩
            · rw [compactLoop, hstep]
              exact hloop
            · intro _
              by_cases hre : rest = []
              · rw [i5 hre]
                exact startsNonWs_ne_nil hms
              · exact i4 hre
            · intro hc
              exact absurd hc (by simp)
            · rw [i6, neLines_flush (Or.inr rfl) (startsNonWs_ne_nil hms), hmn,
                List.flatMap_cons]
              simp [List.append_assoc]

theorem neLines_trimStr_flush (out sp cur : Str)
    (hsp : sp = nlS ∨ sp = nlS ++ nlS)
    (hout : out = [] ∨ ∃ j r, (j = 1 ∨ j = 2) ∧ out = List.replicate j nlTok ++ r
        ∧ startsNonWs r = true)
    (hcs : startsNonWs cur = true) (hce : endsNonWs cur = true) :
    neLines (trimStr (flushCur (out, sp, cur))) = neLines (flushCur (out, sp, cur)) := by
  have hcne : cur ≠ [] := startsNonWs_ne_nil hcs
  rw [flushCur_ne out sp cur hcne]
  have hsprep : ∃ k, sp = List.replicate k nlTok := by
    rcases hsp with rfl | rfl
    · exact ⟨1, by simp [nlS]⟩
    · exact ⟨2, by simp [nlS, List.replicate]⟩
  obtain ⟨k, hk⟩ := hsprep
  rcases hout with rfl | ⟨j, r, hj, hor, hrs⟩
  · rw [show ([] : Str) ++ sp ++ cur = List.replicate k nlTok ++ cur by rw [hk]; simp]
    rw [trimStr, trimLeft, dropWhile_ws_replicate_nl]
    rw [show cur.dropWhile isWsTok = cur from by
      obtain ⟨t, r2, hc⟩ := List.exists_cons_of_ne_nil hcne
      rw [hc]
      refine List.dropWhile_cons_of_neg ?_
      rw [hc] at hcs
      simpa [startsNonWs] using hcs]
    rw [trimRight_eq_self hce, neLines_replicate_nl]
  · rw [hor]
    rw [show (List.replicate j nlTok ++ r) ++ sp ++ cur
        = List.replicate j nlTok ++ (r ++ sp ++ cur) by simp [List.append_assoc]]
    have hrcs : startsNonWs (r ++ sp ++ cur) = true := by
      rw [List.append_assoc, startsNonWs_append _ _ (startsNonWs_ne_nil hrs)]
      exact hrs
    have hrce : endsNonWs (r ++ sp ++ cur) = true := by
      rw [endsNonWs_append _ _ hcne]
      exact hce
    rw [trimStr, trimLeft, dropWhile_ws_replicate_nl]
    rw [show (r ++ sp ++ cur).dropWhile isWsTok = r ++ sp ++ cur from by
      obtain ⟨t, r2, hc⟩ := List.exists_cons_of_ne_nil (startsNonWs_ne_nil hrcs)
      rw [hc]
      refine List.dropWhile_cons_of_neg ?_
      rw [hc] at hrcs
      simpa [startsNonWs] using hrcs]
    rw [trimRight_eq_self hrce, neLines_replicate_nl]

/-- Claim C7: in compact mode the label column width is the maximum
display width over the (present) labels; each row with label and
description present emits the label right-padded to
`labelColumnWidth + 2` columns followed directly by the first wrapped
description line, and each remaining wrapped description line is
indented by `labelColumnWidth + 2` spaces: the non-blank output lines
are exactly these row lines, in order. -/
theorem C7_compact_label_column_layout (h : Help)
    (input : List (Option Str × Option Str)) (opts : ListOpts)
    (mapped : List (Str × Str)) (L : Nat) (w : Int)
    (hmap : mapped = input.map fun p => (renderTemplate h p.1, renderTemplate h p.2))
    (hL : L = labelColWidth mapped) (hw : w = descWidth opts.maxWidth L)
    (hne : input ≠ []) (hml : opts.multiline = false)
    (hrows : ∀ p ∈ mapped,
      (trimStr (stripIf opts.stripAnsi p.1) = stripIf opts.stripAnsi p.1
        ∧ stripIf opts.stripAnsi p.1 ≠ [] ∧ nlTok ∉ stripIf opts.stripAnsi p.1)
      ∧ p.2 ≠ [] ∧ (descLines opts.stripAnsi w p.2).tail.length ≤ 4
      ∧ (∀ e ∈ descLines opts.stripAnsi w p.2, e ≠ [])) :
    neLines (renderList h input opts)
      = mapped.flatMap (compactRowLines opts.stripAnsi w L)
    ∧ L = (mapped.map fun p => displayWidth p.1).foldr max 0 := by
  have hwidths : L = (mapped.map fun p => displayWidth p.1).foldr max 0 := by
    rw [hL, labelColWidth, widestLine_joinLines, List.map_map]
    congr 1
    apply List.map_congr_left
    intro p hp
    apply widestLine_no_nl
    intro hc
    exact ((hrows p hp).1.2.2) (nl_mem_stripIf hc)
  refine ⟨?_, hwidths⟩
  obtain ⟨mw, ml, strip⟩ := opts
  simp only at hml
  subst hml
  dsimp only at hrows hw ⊢
  subst hw
  subst hL
  have hmne : mapped ≠ [] := by
    intro hc
    rw [hc] at hmap
    cases input with
    | nil => exact hne rfl
    | cons q qs => simp at hmap
  obtain ⟨out2, sp2, cur2, hloop, i1, i2, i3, i4, i5, i6⟩ :=
    compactLoop_full strip (descWidth mw (labelColWidth mapped)) (labelColWidth mapped)
      mapped [] nlS [] (Or.inl rfl) (Or.inl rfl) (Or.inl rfl) hrows
  rw [renderList, if_neg hne]
  simp only [← hmap, Bool.false_eq_true, if_false]
  rw [hloop]
  dsimp only
  have hcur2 : cur2 ≠ [] := i4 hmne
  rcases i2 with hc | ⟨hcs, hce⟩
  · exact absurd hc hcur2
  · rw [neLines_trimStr_flush out2 sp2 cur2 i1 i3 hcs hce, i6]
    rw [show flushCur ([], nlS, ([] : Str)) = [] from rfl]
    rw [show neLines ([] : Str) = [] from by decide]
    simp

/-- Claim C7 witness: two rows at `maxWidth = 24`, where the first
description wraps to two lines aligned under the description column. -/
theorem C7_witness :
    ([(some (strL ("--force")), some (strL ("Overwrite existing files"))),
        (some (strL ("-h")), some (strL ("show help")))]
        ≠ ([] : List (Option Str × Option Str)))
    ∧ neLines (renderList hId
        [(some (strL ("--force")), some (strL ("Overwrite existing files"))),
          (some (strL ("-h")), some (strL ("show help")))] { maxWidth := 24 })
      = [(strL ("--force"), strL ("Overwrite existing files")),
          (strL ("-h"), strL ("show help"))].flatMap
          (compactRowLines false
            (descWidth 24 (labelColWidth [(strL ("--force"), strL ("Overwrite existing files")),
              (strL ("-h"), strL ("show help"))]))
            (labelColWidth [(strL ("--force"), strL ("Overwrite existing files")),
              (strL ("-h"), strL ("show help"))]))
    ∧ labelColWidth [(strL ("--force"), strL ("Overwrite existing files")),
          (strL ("-h"), strL ("show help"))]
      = ([(strL ("--force"), strL ("Overwrite existing files")),
          (strL ("-h"), strL ("show help"))].map fun p => displayWidth p.1).foldr max 0 := by
  refine ⟨by decide, ?_, ?_⟩
  · exact (C7_compact_label_column_layout hId
      [(some (strL ("--force")), some (strL ("Overwrite existing files"))),
        (some (strL ("-h")), some (strL ("show help")))]
      { maxWidth := 24 }
      [(strL ("--force"), strL ("Overwrite existing files")),
        (strL ("-h"), strL ("show help"))]
      (labelColWidth [(strL ("--force"), strL ("Overwrite existing files")),
        (strL ("-h"), strL ("show help"))])
      (descWidth 24 (labelColWidth [(strL ("--force"), strL ("Overwrite existing files")),
        (strL ("-h"), strL ("show help"))]))
      (by decide) rfl rfl (by decide) rfl (by decide)).1
  · exact (C7_compact_label_column_layout hId
      [(some (strL ("--force")), some (strL ("Overwrite existing files"))),
        (some (strL ("-h")), some (strL ("show help")))]
      { maxWidth := 24 }
      [(strL ("--force"), strL ("Overwrite existing files")),
        (strL ("-h"), strL ("show help"))]
      (labelColWidth [(strL ("--force"), strL ("Overwrite existing files")),
        (strL ("-h"), strL ("show help"))])
      (descWidth 24 (labelColWidth [(strL ("--force"), strL ("Overwrite existing files")),
        (strL ("-h"), strL ("show help"))]))
      (by decide) rfl rfl (by decide) rfl (by decide)).2

theorem nl_not_mem_stripIf {b : Bool} {s : Str} (h : nlTok ∉ s) : nlTok ∉ stripIf b s := by
  cases b with
  | false => simpa [stripIf] using h
  | true => simpa [stripIf] using nl_not_mem_stripAnsi h

theorem swWidth_eq_displayWidth {s : Str} (h : nlTok ∉ s) : swWidth s = displayWidth s := by
  have hf : s.filter (· ≠ nlTok) = s := by
    apply List.filter_eq_self.mpr
    intro a ha
    have hne : a ≠ nlTok := fun he => h (he ▸ ha)
    simp [hne]
  rw [swWidth, hf]

theorem stepRowE_eq_stepRow (strip : Bool) (w : Int) (maxLength : Nat) (st : CState)
    (p : Str × Str) (hnl : nlTok ∉ p.1) (hle : displayWidth p.1 ≤ maxLength + 2) :
    stepRowE strip w maxLength st p =
      match stepRow strip w maxLength st p with
      | some st2 => StepRes.next st2
      | none => StepRes.fallback := by
  have hsw : swWidth (stripIf strip p.1) = displayWidth p.1 := by
    rw [swWidth_eq_displayWidth (nl_not_mem_stripIf hnl), displayWidth_stripIf]
  have hnoerr : ¬ (((maxLength : Int) + 2) < (swWidth (stripIf strip p.1) : Int)) := by
    rw [hsw]; omega
  have hpad : displayWidth (stripIf strip p.1) = swWidth (stripIf strip p.1) := by
    rw [hsw]; exact displayWidth_stripIf strip p.1
  rw [stepRowE, stepRow]
  dsimp only
  by_cases h2 : p.2 = []
  · rw [if_pos h2, if_pos h2]
  · rw [if_neg h2, if_neg h2, if_neg hnoerr]
    cases hd : descLines strip w p.2 with
    | nil => rfl
    | cons first rest =>
        dsimp only
        rw [hpad]
        by_cases hr : rest = []
        · rw [if_pos hr, if_pos hr]
        · rw [if_neg hr, if_neg hr]
          by_cases h4 : 4 < rest.length
          · rw [if_pos h4, if_pos h4]
          · rw [if_neg h4, if_neg h4]

theorem compactLoopE_eq_compactLoop (strip : Bool) (w : Int) (maxLength : Nat)
    (rows : List (Str × Str)) (st : CState)
    (h : ∀ p ∈ rows, nlTok ∉ p.1 ∧ displayWidth p.1 ≤ maxLength + 2) :
    compactLoopE strip w maxLength rows st =
      match compactLoop strip w maxLength rows st with
      | some st2 => StepRes.next st2
      | none => StepRes.fallback := by
  induction rows generalizing st with
  | nil => rfl
  | cons p rest ih =>
      obtain ⟨hnl, hle⟩ := h p (List.mem_cons_self p rest)
      rw [compactLoopE, compactLoop, stepRowE_eq_stepRow strip w maxLength st p hnl hle]
      cases hsr : stepRow strip w maxLength st p with
      | none => rfl
      | some st2 =>
          dsimp only
          exact ih st2 (fun q hq => h q (List.mem_cons_of_mem p hq))

/-- Wherever every (template-substituted) label is a single line, the
compact loop's padding count is non-negative, so no `RangeError` can be
thrown: the error-faithful rendering returns a string and agrees with the
truncating model. -/
theorem renderListE_eq_renderList (h : Help) (input : List (Option Str × Option Str))
    (opts : ListOpts)
    (hnl : ∀ p ∈ input, nlTok ∉ renderTemplate h p.1) :
    renderListE h input opts = some (renderList h input opts) := by
  by_cases hz : input = []
  · subst hz; rfl
  · have hrows : ∀ q ∈ input.map (fun p => (renderTemplate h p.1, renderTemplate h p.2)),
        nlTok ∉ q.1 ∧ displayWidth q.1 ≤
          labelColWidth (input.map fun p => (renderTemplate h p.1, renderTemplate h p.2)) + 2 := by
      intro q hq
      obtain ⟨p, hp, rfl⟩ := List.mem_map.mp hq
      exact ⟨hnl p hp,
        Nat.le_trans (label_le_colWidth hq (hnl p hp)) (Nat.le_add_right _ 2)⟩
    rw [renderListE, renderList, if_neg hz, if_neg hz]
    dsimp only
    by_cases hml : opts.multiline = true
    · rw [if_pos hml, if_pos hml]
    · rw [if_neg hml, if_neg hml]
      rw [compactLoopE_eq_compactLoop opts.stripAnsi
        (descWidth opts.maxWidth
          (labelColWidth (input.map fun p => (renderTemplate h p.1, renderTemplate h p.2))))
        (labelColWidth (input.map fun p => (renderTemplate h p.1, renderTemplate h p.2)))
        (input.map fun p => (renderTemplate h p.1, renderTemplate h p.2)) ([], nlS, []) hrows]
      cases compactLoop opts.stripAnsi
          (descWidth opts.maxWidth
            (labelColWidth (input.map fun p => (renderTemplate h p.1, renderTemplate h p.2))))
          (labelColWidth (input.map fun p => (renderTemplate h p.1, renderTemplate h p.2)))
          (input.map fun p => (renderTemplate h p.1, renderTemplate h p.2)) ([], nlS, []) with
      | none => rfl
      | some st => rfl

/-- Claim C9: the layout engine is NOT total over its input domain — for
a row whose label spans several lines and whose description is present,
the padding count computed at the label column is negative (the column
width comes from the widest single label line while the width of the
current label is the string-width of the whole label), so the source's
space-padding `repeat` throws a `RangeError` that escapes `renderList`
and, through a list section, both `renderScreen` and `renderMarkdown`.
Here the label has the three lines `ab`, `cd`, `ef` and the description
is `x`, so the count is 2 - 6 + 2 = -2.  Multiline mode on the same row
and the degenerate empty inputs still return strings. -/
theorem C9_padding_repeat_range_error :
    renderListE hId [(some (strL ("ab\ncd\nef")), some (strL ("x")))]
        { maxWidth := 40 } = none
    ∧ renderScreenE hId ⟨none, [⟨strL ("usage"), none,
        Body.pairs [(some (strL ("ab\ncd\nef")), some (strL ("x")))]⟩]⟩ = none
    ∧ renderMarkdownE hId ⟨none, [⟨strL ("usage"), none,
        Body.pairs [(some (strL ("ab\ncd\nef")), some (strL ("x")))]⟩]⟩ = none
    ∧ (renderListE hId [(some (strL ("ab\ncd\nef")), some (strL ("x")))]
        { maxWidth := 40, multiline := true }).isSome = true
    ∧ renderListE hId [] { maxWidth := 40 } = some []
    ∧ renderScreenE hId ⟨none, []⟩ = some []
    ∧ renderMarkdownE hId ⟨none, []⟩ = some [] := by decide

end PluginHelp
